import Mathlib

/- Shallow embedding of the `simplearrayhash` crate (src/lib.rs, src/map.rs,
   src/set.rs): a static open-addressing hash table for byte-string keys with
   linear probing, plus the `HashMap` and `HashSet` adapters built on it.

   Modelling conventions:
   * Byte strings are lists of naturals (`ByteStr`); the code only compares
     keys for byte equality, so the element type is irrelevant.
   * The external 64-bit hash function (`fasthash::city::hash64`) is a
     parameter `h : ByteStr → Nat` of every operation; the crate assumes
     nothing about it beyond determinism (spec §6).
   * `usize` arithmetic is modelled on `Nat`; the counts involved are memory
     bounded so no wraparound occurs on any reachable value.
   * The two unbounded `while` loops (`Table::build`'s probe and
     `Table::get_pos`) are given explicit fuel equal to the table capacity;
     theorems below show that this fuel is never exhausted on tables the
     code can build, so the fuelled functions agree with the Rust loops.
   * Rust panics (`unwrap`, out-of-bounds indexing) are surfaced as the
     distinguished error `BuildError.unwrapPanic` in the constructors. -/

namespace SimpleArrayHash

/-- Byte strings, the keys of the table. -/
abbrev ByteStr := List Nat
/-- Fuel-based bit length: `bitLenAux fuel n` is the number of binary digits
    of `n` provided `n ≤ fuel`.  Structural recursion on the fuel keeps the
    definition kernel-reducible. -/
def bitLenAux : Nat → Nat → Nat
  | 0, _ => 0
  | fuel + 1, n => if n = 0 then 0 else bitLenAux fuel (n / 2) + 1

/-- Number of binary digits of `n`, i.e. `WORD_BITS - n.leading_zeros()` for
    a `usize` value `n` in the Rust source. -/
def bitLen (n : Nat) : Nat := bitLenAux n n
/-- Model of `ceil_two` in lib.rs: `1 << (WORD_BITS - n.leading_zeros())`,
    the smallest power of two strictly greater than `n`. -/
def ceil_two (n : Nat) : Nat := 2 ^ bitLen n
/-- Model of the capacity computation in `Table::build`:
    `ceil_two((num_keys as f64 / MAX_LOAD_FACTOR) as usize)` with
    `MAX_LOAD_FACTOR = 0.8`.  The truncated float quotient is modelled as
    `5 * n / 4` in exact arithmetic.  The f64 constant `0.8` is slightly
    above 4/5, so for `4 ∣ n` the float quotient may truncate to
    `5*n/4 - 1` instead of `5*n/4`; since `5*n/4` is never a power of two,
    `ceil_two` maps both to the same capacity, hence the model computes the
    capacity the Rust code computes (for all counts below 2^52, far beyond
    any feasible key count). -/
def capacityOf (n : Nat) : Nat := ceil_two (5 * n / 4)
/-- Per-slot descriptor, modelling `MapNode<V>` of map.rs; the payload-less
    `SetNode` of set.rs is the instance `V = Unit`.  `ptr` and `len` delimit
    the key's byte range inside the table's shared buffer, `val` is the
    payload. -/
structure MapNode (V : Type) where
  ptr : Nat
  len : Nat
  val : V

/-- The table engine `Table<N>` of lib.rs, generic over the node payload. -/
structure Table (V : Type) where
  nodes : List (Option (MapNode V))
  bytes : List Nat
  capacity_mask : Nat
  num_keys : Nat

/-- Model of `Table::get_bytes`: `&self.bytes[node.ptr()..node.ptr()+node.len()]`.
    The Rust slice panics when the range exceeds the buffer; the invariant
    proved below shows every node of a built table is in range, where the
    total `drop`/`take` model coincides with the slice. -/
def Table.get_bytes {V : Type} (T : Table V) (nd : MapNode V) : ByteStr :=
  (T.bytes.drop nd.ptr).take nd.len

/-- Fuelled model of the probe loop in `Table::get_pos`.  `some none` is the
    "reached an empty slot, not found" outcome, `some (some pos)` the
    "stored bytes equal the key" outcome, and `none` means the fuel ran out
    (the Rust loop would still be running).  `get_pos` runs it with fuel
    `nodes.length`; the termination theorem below shows that fuel is never
    exhausted on a table the code can build. -/
def probeLoop {V : Type} (T : Table V) (k : ByteStr) : Nat → Nat → Option (Option Nat)
  | 0, _ => none
  | fuel + 1, pos =>
    match T.nodes.getD pos none with
    | none => some none
    | some nd =>
      if k = T.get_bytes nd then some (some pos)
      else probeLoop T k fuel ((pos + 1) &&& T.capacity_mask)

/-- Model of `Table::get_pos`: start at `hash_key(key) & capacity_mask` and
    probe linearly.  The hash function `h` is a parameter (see header). -/
def Table.get_pos {V : Type} (h : ByteStr → Nat) (T : Table V) (k : ByteStr) : Option Nat :=
  (probeLoop T k T.nodes.length (h k &&& T.capacity_mask)).join

/-- Model of `Table::get`: `get_pos(key).and_then(|pos| self.nodes[pos].as_ref())`.
    The Rust indexing `self.nodes[pos]` is in bounds because `get_pos` only
    returns probed positions (proved below); `getD` coincides with it there. -/
def Table.get {V : Type} (h : ByteStr → Nat) (T : Table V) (k : ByteStr) : Option (MapNode V) :=
  (T.get_pos h k).bind fun pos => T.nodes.getD pos none

/-- Model of `Table::num_keys`. -/
def Table.numKeys {V : Type} (T : Table V) : Nat := T.num_keys
/-- Payload write at a slot: `self.nodes[pos].as_mut().unwrap().val = v` with
    the surrounding occupancy knowledge; on an empty slot (where Rust would
    panic, shown unreachable below) the table is returned unchanged. -/
def Table.setValAt {V : Type} (T : Table V) (pos : Nat) (v : V) : Table V :=
  match T.nodes.getD pos none with
  | none => T
  | some nd => { T with nodes := T.nodes.set pos (some { nd with val := v }) }

/-- Fuelled model of the probe loop in `Table::build`:
    `while mapping[pos].is_some() { pos = (pos + 1) & capacity_mask; }`.
    When the fuel (set to the capacity by `insertKeys`) runs out the current
    position is returned; the build invariant below shows an empty slot is
    always found strictly before that. -/
def findFree (mapping : List (Option Nat)) (mask : Nat) : Nat → Nat → Nat
  | 0, pos => pos
  | fuel + 1, pos =>
    match mapping.getD pos none with
    | some _ => findFree mapping mask fuel ((pos + 1) &&& mask)
    | none => pos

/-- The first pass of `Table::build`: `for (i, key) in keys.iter().enumerate()`
    assign key `i` to the first free slot of its probe sequence. -/
def insertKeys (h : ByteStr → Nat) (mask : Nat) :
    List (Option Nat) → List ByteStr → Nat → List (Option Nat)
  | mapping, [], _ => mapping
  | mapping, key :: rest, i =>
    insertKeys h mask
      (mapping.set (findFree mapping mask mapping.length (h key &&& mask)) (some i))
      rest (i + 1)

/-- The slot-to-key-index assignment `mapping` computed by `Table::build`. -/
def buildMapping (h : ByteStr → Nat) (keys : List ByteStr) : List (Option Nat) :=
  insertKeys h (capacityOf keys.length - 1)
    (List.replicate (capacityOf keys.length) none) keys 0

/-- The second pass of `Table::build`: walk the slots in index order; for every
    assigned slot append the key's bytes to the shared buffer and record a
    node with `ptr` = buffer length before the append and `len` = key length
    (`N::new` fills the payload with the default value). -/
def buildNodes {V : Type} [Inhabited V] (keys : List ByteStr) :
    List (Option Nat) → List Nat → List (Option (MapNode V)) × List Nat
  | [], bytes => ([], bytes)
  | none :: rest, bytes =>
    let r := buildNodes keys rest bytes
    (none :: r.1, r.2)
  | some j :: rest, bytes =>
    let key := keys.getD j []
    let r := buildNodes keys rest (bytes ++ key)
    (some ⟨bytes.length, key.length, default⟩ :: r.1, r.2)

/-- Model of `Table::build`. -/
def Table.build (V : Type) [Inhabited V] (h : ByteStr → Nat) (keys : List ByteStr) : Table V :=
  let num_keys := keys.length
  let capacity := capacityOf num_keys
  let mapping := buildMapping h keys
  let nb := buildNodes (V := V) keys mapping []
  { nodes := nb.1, bytes := nb.2, capacity_mask := capacity - 1, num_keys := num_keys }

/-- Construction errors of the adapters.  The Rust code reports the first two
    as `anyhow` errors ("must not be empty" / "must not contain duplicated
    keys"); `unwrapPanic` models the `.unwrap()` panics in the constructors,
    proved unreachable below. -/
inductive BuildError where
  | emptyInput
  | duplicateKey
  | unwrapPanic
deriving DecidableEq

/-- Model of the duplicate-detection/value-writing loop of `HashMap::new`:
    `for (k, v) in records { let pos = table.get_pos(k).unwrap(); if flags[pos]
    { return Err(..); } table.nodes[pos].as_mut().unwrap().val = v.clone();
    flags[pos] = true; }`. -/
def mapLoop {V : Type} (h : ByteStr → Nat) :
    Table V → List Bool → List (ByteStr × V) → Except BuildError (Table V)
  | table, _, [] => .ok table
  | table, flags, (k, v) :: rest =>
    match Table.get_pos h table k with
    | none => .error .unwrapPanic
    | some pos =>
      if flags.getD pos false then .error .duplicateKey
      else
        match table.nodes.getD pos none with
        | none => .error .unwrapPanic
        | some nd =>
          mapLoop h { table with nodes := table.nodes.set pos (some { nd with val := v }) }
            (flags.set pos true) rest

/-- The map adapter of map.rs. -/
structure HashMap (V : Type) where
  table : Table V

/-- Model of `HashMap::new`. -/
def HashMap.new {V : Type} [Inhabited V] (h : ByteStr → Nat)
    (records : List (ByteStr × V)) : Except BuildError (HashMap V) :=
  if records.isEmpty then .error .emptyInput
  else
    let keys := records.map Prod.fst
    let table := Table.build V h keys
    (mapLoop h table (List.replicate table.nodes.length false) records).map HashMap.mk

/-- Model of `HashMap::contains_key`. -/
def HashMap.contains_key {V : Type} (h : ByteStr → Nat) (m : HashMap V) (k : ByteStr) : Bool :=
  (m.table.get h k).isSome

/-- Model of `HashMap::get` (read through the returned reference). -/
def HashMap.get {V : Type} (h : ByteStr → Nat) (m : HashMap V) (k : ByteStr) : Option V :=
  (m.table.get h k).map (·.val)

/-- Model of writing through `HashMap::get_mut`:
    `*map.get_mut(k).unwrap() = v`.  When the key is absent the Rust
    expression panics on the `unwrap`; the model returns the map unchanged,
    and the claims only invoke it on present keys. -/
def HashMap.writeViaGetMut {V : Type} (h : ByteStr → Nat) (m : HashMap V)
    (k : ByteStr) (v : V) : HashMap V :=
  match m.table.get_pos h k with
  | none => m
  | some pos => ⟨m.table.setValAt pos v⟩

/-- Model of `HashMap::len`. -/
def HashMap.len {V : Type} (m : HashMap V) : Nat := m.table.num_keys
/-- Model of `HashMap::is_empty`. -/
def HashMap.is_empty {V : Type} (m : HashMap V) : Bool := m.len == 0
/-- Model of the duplicate-detection loop of `HashSet::new` (same discipline
    as `mapLoop` but with no payload write). -/
def setLoop (h : ByteStr → Nat) (table : Table Unit) :
    List Bool → List ByteStr → Except BuildError Unit
  | _, [] => .ok ()
  | flags, k :: rest =>
    match Table.get_pos h table k with
    | none => .error .unwrapPanic
    | some pos =>
      if flags.getD pos false then .error .duplicateKey
      else setLoop h table (flags.set pos true) rest

/-- The set adapter of set.rs. -/
structure HashSet where
  table : Table Unit

/-- Model of `HashSet::new`. -/
def HashSet.new (h : ByteStr → Nat) (keys : List ByteStr) : Except BuildError HashSet :=
  if keys.isEmpty then .error .emptyInput
  else
    let table := Table.build Unit h keys
    (setLoop h table (List.replicate table.nodes.length false) keys).map fun _ => ⟨table⟩

/-- Model of `HashSet::contains`. -/
def HashSet.contains (h : ByteStr → Nat) (s : HashSet) (k : ByteStr) : Bool :=
  (s.table.get h k).isSome

/-- Model of `HashSet::len`. -/
def HashSet.len (s : HashSet) : Nat := s.table.num_keys
/-- Model of `HashSet::is_empty`. -/
def HashSet.is_empty (s : HashSet) : Bool := s.len == 0
/-- The probe sequence of a lookup for `k`: start at
    `hash_key(key) & capacity_mask`, advance by `(pos + 1) & capacity_mask`. -/
def probeSeq {V : Type} (T : Table V) (h : ByteStr → Nat) (k : ByteStr) : Nat → Nat
  | 0 => h k &&& T.capacity_mask
  | t + 1 => (probeSeq T h k t + 1) &&& T.capacity_mask

/-- Invariant of the first pass of `Table::build` after the keys of index
    `< i` have been placed: `i` slots are occupied, they hold exactly the
    indices `< i`, and every occupied slot lies on its key's probe sequence
    with all earlier probed slots occupied (the linear-probing reachability
    invariant). -/
structure MappingInv (h : ByteStr → Nat) (keys : List ByteStr)
    (mapping : List (Option Nat)) (i : Nat) : Prop where
  len : mapping.length = capacityOf keys.length
  count : mapping.countP (·.isSome) = i
  idx : ∀ p j, mapping.getD p none = some j → j < i
  all : ∀ j, j < i → ∃ p, p < mapping.length ∧ mapping.getD p none = some j
  path : ∀ p j, mapping.getD p none = some j →
    ∃ d, d < mapping.length ∧
      p = ((h (keys.getD j []) &&& (capacityOf keys.length - 1)) + d) % mapping.length ∧
      ∀ t, t < d →
        (mapping.getD (((h (keys.getD j []) &&& (capacityOf keys.length - 1)) + t)
          % mapping.length) none).isSome

/-- Two tables with the same byte buffer, capacity mask, and slot shape
    (occupancy and `ptr`/`len` of every node): payload writes produce
    shape-equal tables, and lookups cannot tell shape-equal tables apart. -/
def ShapeEq {V : Type} (T T' : Table V) : Prop :=
  T'.bytes = T.bytes ∧ T'.capacity_mask = T.capacity_mask ∧
  T'.nodes.length = T.nodes.length ∧ T'.num_keys = T.num_keys ∧
  ∀ q, (T'.nodes.getD q none).map (fun x => (x.ptr, x.len))
      = (T.nodes.getD q none).map (fun x => (x.ptr, x.len))

/- Concrete instances used by the witness theorems below.  `wHash` is the
   constant hash (every key collides, exercising the probe paths). -/

def wHash : ByteStr → Nat := fun _ => 0

def wRecords : List (ByteStr × Nat) := [([1], 10), ([2], 20), ([], 30)]

def wKeys : List ByteStr := [[1], [2], []]

def wKeys5 : List ByteStr := [[1], [2], [3], [4], [5]]

def wDupRecords : List (ByteStr × Nat) := [([1], 10), ([2], 20), ([1], 30)]

def wDupKeys : List ByteStr := [[1], [2], [1]]

def wMapResult : HashMap Nat :=
  (HashMap.new wHash wRecords).toOption.getD ⟨Table.build Nat wHash wKeys⟩

def wSetResult : HashSet :=
  (HashSet.new wHash wKeys).toOption.getD ⟨Table.build Unit wHash wKeys⟩

/- Theorems. -/

theorem bitLenAux_le_iff : ∀ (fuel n : Nat), n ≤ fuel → ∀ j, (bitLenAux fuel n ≤ j ↔ n < 2 ^ j) := by
  intro fuel
  induction fuel with
  | zero =>
    intro n hn j
    interval_cases n
    simp [bitLenAux, Nat.pos_pow_of_pos, Nat.two_pow_pos]
  | succ fuel ih =>
    intro n hn j
    by_cases h0 : n = 0
    · subst h0
      simp [bitLenAux, Nat.two_pow_pos]
    · have hdiv : n / 2 ≤ fuel := by
        have : n / 2 < n := Nat.div_lt_self (Nat.pos_of_ne_zero h0) one_lt_two
        omega
      have ihn := ih (n / 2) hdiv
      cases j with
      | zero =>
        simp only [bitLenAux, h0, if_false]
        constructor
        · omega
        · intro hlt
          exact absurd hlt (by simp; omega)
      | succ j =>
        simp only [bitLenAux, h0, if_false, Nat.succ_le_succ_iff]
        rw [ihn j]
        rw [pow_succ]
        exact Nat.div_lt_iff_lt_mul two_pos

theorem bitLen_le_iff (n j : Nat) : bitLen n ≤ j ↔ n < 2 ^ j :=
  bitLenAux_le_iff n n le_rfl j

theorem lt_ceil_two (n : Nat) : n < ceil_two n :=
  (bitLen_le_iff n (bitLen n)).mp le_rfl

theorem ceil_two_le_pow {n j : Nat} (hlt : n < 2 ^ j) : ceil_two n ≤ 2 ^ j :=
  Nat.pow_le_pow_right two_pos ((bitLen_le_iff n j).mpr hlt)

theorem ceil_two_pos (n : Nat) : 0 < ceil_two n := Nat.two_pow_pos _
theorem lt_capacityOf (n : Nat) : n < capacityOf n := by
  have h1 : n ≤ 5 * n / 4 := by
    rw [Nat.le_div_iff_mul_le (by norm_num)]
    omega
  exact Nat.lt_of_le_of_lt h1 (lt_ceil_two _)

theorem capacityOf_pos (n : Nat) : 0 < capacityOf n := ceil_two_pos _
/-- The capacity satisfies the load-factor bound `n / c ≤ 4/5` in the form
    `5 * n ≤ 4 * c`. -/
theorem capacityOf_load (n : Nat) : 5 * n ≤ 4 * capacityOf n := by
  have h1 : 5 * n / 4 < capacityOf n := lt_ceil_two _
  have h2 : 4 * (5 * n / 4) + 5 * n % 4 = 5 * n := Nat.div_add_mod _ _
  have h3 : 5 * n % 4 < 4 := Nat.mod_lt _ (by norm_num)
  omega

/-- Minimality: any power of two meeting the load-factor bound is at least
    the computed capacity. -/
theorem capacityOf_min (n j : Nat) (hload : 5 * n ≤ 4 * 2 ^ j) :
    capacityOf n ≤ 2 ^ j := by
  apply ceil_two_le_pow
  by_contra hge
  push_neg at hge
  have h1 : 4 * (5 * n / 4) ≤ 5 * n := by
    have := Nat.div_mul_le_self (5 * n) 4
    omega
  have h2 : 4 * 2 ^ j ≤ 4 * (5 * n / 4) := by omega
  have heq : 5 * n = 4 * 2 ^ j := by omega
  have hdvd : (5 : Nat) ∣ 2 ^ (j + 2) := by
    refine ⟨n, ?_⟩
    rw [pow_succ, pow_succ]
    omega
  have hp : Nat.Prime 5 := by norm_num
  have := hp.dvd_of_dvd_pow hdvd
  omega

/- List helper lemmas used throughout. -/

theorem getD_set_self {α : Type} (l : List α) (p : Nat) (x d : α) (hp : p < l.length) :
    (l.set p x).getD p d = x := by
  simp [List.getD_eq_getElem?_getD, List.getElem?_set_self hp]

theorem getD_set_ne {α : Type} (l : List α) {p q : Nat} (x d : α) (hpq : p ≠ q) :
    (l.set p x).getD q d = l.getD q d := by
  simp [List.getD_eq_getElem?_getD, List.getElem?_set_ne hpq]

theorem getD_replicate_none {α : Type} (c p : Nat) :
    (List.replicate c (none : Option α)).getD p none = none := by
  simp only [List.getD_eq_getElem?_getD, List.getElem?_replicate]
  by_cases hp : p < c <;> simp [hp]

theorem countP_set_some {α : Type} :
    ∀ (l : List (Option α)) (p : Nat) (x : α), p < l.length → l.getD p none = none →
      (l.set p (some x)).countP (·.isSome) = l.countP (·.isSome) + 1 := by
  intro l
  induction l with
  | nil => intro p x hp _; simp at hp
  | cons a t ih =>
    intro p x hp he
    cases p with
    | zero =>
      have ha : a = none := by simpa [List.getD] using he
      subst ha
      simp [List.countP_cons]
    | succ p =>
      have he' : t.getD p none = none := by simpa [List.getD] using he
      have hp' : p < t.length := by simpa using hp
      simp only [List.set, List.countP_cons]
      rw [ih p x hp' he']
      omega

theorem exists_none_of_countP_lt {α : Type} (l : List (Option α))
    (hlt : l.countP (·.isSome) < l.length) :
    ∃ p, p < l.length ∧ l.getD p none = none := by
  by_contra hc
  push_neg at hc
  have hall : ∀ a ∈ l, a.isSome := by
    intro a ha
    obtain ⟨i, hi, rfl⟩ := List.mem_iff_getElem.mp ha
    have := hc i hi
    have hgd : l.getD i none = l[i] := by
      simp [List.getD_eq_getElem?_getD, List.getElem?_eq_getElem hi]
    rw [hgd] at this
    cases hx : l[i] with
    | none => exact absurd hx this
    | some y => simp
  have heq : l.countP (·.isSome) = l.length :=
    List.countP_eq_length.mpr (by intro a ha; simpa using hall a ha)
  omega

theorem slice_append {α : Type} (xs ys : List α) (ptr len : Nat)
    (hle : ptr + len ≤ xs.length) :
    ((xs ++ ys).drop ptr).take len = (xs.drop ptr).take len := by
  rw [List.drop_append_eq_append_drop]
  have h1 : ptr - xs.length = 0 := by omega
  rw [h1, List.drop_zero, List.take_append_eq_append_take]
  have h2 : len - (xs.drop ptr).length = 0 := by
    simp only [List.length_drop]
    omega
  rw [h2, List.take_zero, List.append_nil]

theorem slice_at_end {α : Type} (xs ys : List α) :
    ((xs ++ ys).drop xs.length).take ys.length = ys := by
  rw [List.drop_left, List.take_length]

/- Ring arithmetic for the probe positions. -/

theorem shift_mod (c home t : Nat) :
    ((home + 1) % c + t) % c = (home + (t + 1)) % c := by
  rw [Nat.mod_add_mod]
  congr 1
  omega

theorem offset_exists {c home p : Nat} (hh : home < c) (hp : p < c) :
    ∃ e, e < c ∧ (home + e) % c = p := by
  refine ⟨(p + c - home) % c, Nat.mod_lt _ (by omega), ?_⟩
  rw [Nat.add_mod_mod]
  have harith : home + (p + c - home) = p + c := by omega
  rw [harith, Nat.add_mod_right, Nat.mod_eq_of_lt hp]

/-- Under the well-formedness of built tables (capacity a power of two and
    `capacity_mask = capacity - 1`), masking is reduction mod the capacity. -/
theorem mask_eq_mod {V : Type} (T : Table V) (b : Nat)
    (hc : T.nodes.length = 2 ^ b) (hm : T.capacity_mask = T.nodes.length - 1)
    (x : Nat) : x &&& T.capacity_mask = x % T.nodes.length := by
  rw [hm, hc]
  exact Nat.and_pow_two_sub_one_eq_mod x b

/-- Master lemma for the lookup loop: if some position of the probe sequence
    (within the fuel) is a stop — an empty slot or a byte match — then the
    loop stops at the first stop `d`: every earlier probed slot is occupied
    by non-matching bytes, and the result is "not found" or the matching
    position according to the kind of stop. -/
theorem probeLoop_stop {V : Type} (T : Table V) (k : ByteStr) (b : Nat)
    (hc : T.nodes.length = 2 ^ b) (hm : T.capacity_mask = T.nodes.length - 1) :
    ∀ (e fuel home : Nat), home < T.nodes.length → e < fuel →
      (T.nodes.getD ((home + e) % T.nodes.length) none = none ∨
        ∃ nd, T.nodes.getD ((home + e) % T.nodes.length) none = some nd ∧
          T.get_bytes nd = k) →
      ∃ d, d ≤ e ∧
        (∀ t, t < d → ∃ nd,
          T.nodes.getD ((home + t) % T.nodes.length) none = some nd ∧
            T.get_bytes nd ≠ k) ∧
        ((T.nodes.getD ((home + d) % T.nodes.length) none = none ∧
            probeLoop T k fuel home = some none) ∨
          (∃ nd, T.nodes.getD ((home + d) % T.nodes.length) none = some nd ∧
            T.get_bytes nd = k ∧
            probeLoop T k fuel home = some (some ((home + d) % T.nodes.length)))) := by
  intro e
  induction e with
  | zero =>
    intro fuel home hhome hfuel hstop
    obtain ⟨f, rfl⟩ : ∃ f, fuel = f + 1 := ⟨fuel - 1, by omega⟩
    have hmod : (home + 0) % T.nodes.length = home := by
      rw [Nat.add_zero]
      exact Nat.mod_eq_of_lt hhome
    refine ⟨0, le_rfl, fun t ht => absurd ht (Nat.not_lt_zero t), ?_⟩
    rw [hmod] at hstop ⊢
    rcases hstop with hnone | ⟨nd, hnd, hbytes⟩
    · exact Or.inl ⟨hnone, by simp only [probeLoop, hnone]⟩
    · refine Or.inr ⟨nd, hnd, hbytes, ?_⟩
      simp only [probeLoop, hnd, if_pos hbytes.symm]
  | succ e ih =>
    intro fuel home hhome hfuel hstop
    obtain ⟨f, rfl⟩ : ∃ f, fuel = f + 1 := ⟨fuel - 1, by omega⟩
    have hmod : (home + 0) % T.nodes.length = home := by
      rw [Nat.add_zero]
      exact Nat.mod_eq_of_lt hhome
    cases hslot : T.nodes.getD home none with
    | none =>
      refine ⟨0, by omega, fun t ht => absurd ht (Nat.not_lt_zero t), Or.inl ⟨?_, ?_⟩⟩
      · rw [hmod]
        exact hslot
      · simp only [probeLoop, hslot]
    | some nd =>
      by_cases hb : k = T.get_bytes nd
      · refine ⟨0, by omega, fun t ht => absurd ht (Nat.not_lt_zero t),
          Or.inr ⟨nd, ?_, hb.symm, ?_⟩⟩
        · rw [hmod]
          exact hslot
        · rw [hmod]
          simp only [probeLoop, hslot, if_pos hb]
      · have hstep : (home + 1) &&& T.capacity_mask = (home + 1) % T.nodes.length :=
          mask_eq_mod T b hc hm (home + 1)
        have hc0 : 0 < T.nodes.length := by omega
        have hhome1 : (home + 1) % T.nodes.length < T.nodes.length := Nat.mod_lt _ hc0
        have hstop1 :
            T.nodes.getD (((home + 1) % T.nodes.length + e) % T.nodes.length) none = none ∨
            ∃ nd, T.nodes.getD (((home + 1) % T.nodes.length + e) % T.nodes.length) none
                = some nd ∧ T.get_bytes nd = k := by
          rw [shift_mod]
          exact hstop
        obtain ⟨d, hdle, hpre, hres⟩ := ih f ((home + 1) % T.nodes.length) hhome1 (by omega) hstop1
        have hloop : probeLoop T k (f + 1) home
            = probeLoop T k f ((home + 1) % T.nodes.length) := by
          simp only [probeLoop, hslot, if_neg hb, hstep]
        refine ⟨d + 1, by omega, ?_, ?_⟩
        · intro t ht
          cases t with
          | zero =>
            refine ⟨nd, ?_, fun hcontra => hb hcontra.symm⟩
            rw [hmod]
            exact hslot
          | succ t =>
            have := hpre t (by omega)
            rwa [shift_mod] at this
        · rw [hloop]
          rw [shift_mod] at hres
          exact hres

/-- A successful probe result is an occupied slot whose stored bytes equal
    the query key. -/
theorem probeLoop_some_occupied {V : Type} (T : Table V) (k : ByteStr) :
    ∀ (fuel pos p : Nat), probeLoop T k fuel pos = some (some p) →
      ∃ nd, T.nodes.getD p none = some nd ∧ T.get_bytes nd = k := by
  intro fuel
  induction fuel with
  | zero => intro pos p hp; exact Option.noConfusion hp
  | succ fuel ih =>
    intro pos p hp
    cases hslot : T.nodes.getD pos none with
    | none =>
      simp only [probeLoop, hslot] at hp
      simp at hp
    | some nd =>
      by_cases hb : k = T.get_bytes nd
      · simp only [probeLoop, hslot, if_pos hb, Option.some.injEq] at hp
        exact ⟨nd, hp ▸ hslot, hb.symm⟩
      · simp only [probeLoop, hslot, if_neg hb] at hp
        exact ih _ p hp

/-- A successful probe result is a position below the capacity. -/
theorem probeLoop_some_lt {V : Type} (T : Table V) (k : ByteStr)
    (hm : T.capacity_mask = T.nodes.length - 1) (h0 : 0 < T.nodes.length) :
    ∀ (fuel pos p : Nat), pos < T.nodes.length →
      probeLoop T k fuel pos = some (some p) → p < T.nodes.length := by
  intro fuel
  induction fuel with
  | zero => intro pos p _ hp; exact Option.noConfusion hp
  | succ fuel ih =>
    intro pos p hpos hp
    cases hslot : T.nodes.getD pos none with
    | none =>
      simp only [probeLoop, hslot] at hp
      simp at hp
    | some nd =>
      by_cases hb : k = T.get_bytes nd
      · simp only [probeLoop, hslot, if_pos hb, Option.some.injEq] at hp
        omega
      · simp only [probeLoop, hslot, if_neg hb] at hp
        refine ih _ p ?_ hp
        calc (pos + 1) &&& T.capacity_mask ≤ T.capacity_mask := Nat.and_le_right
          _ < T.nodes.length := by omega

theorem get_pos_some_spec {V : Type} (h : ByteStr → Nat) (T : Table V) (k : ByteStr)
    (p : Nat) (hp : T.get_pos h k = some p) :
    ∃ nd, T.nodes.getD p none = some nd ∧ T.get_bytes nd = k := by
  rw [Table.get_pos, Option.join_eq_some] at hp
  exact probeLoop_some_occupied T k _ _ p hp

theorem get_pos_some_lt {V : Type} (h : ByteStr → Nat) (T : Table V) (k : ByteStr)
    (p : Nat) (hm : T.capacity_mask = T.nodes.length - 1) (h0 : 0 < T.nodes.length)
    (hp : T.get_pos h k = some p) : p < T.nodes.length := by
  rw [Table.get_pos, Option.join_eq_some] at hp
  refine probeLoop_some_lt T k hm h0 _ _ p ?_ hp
  calc h k &&& T.capacity_mask ≤ T.capacity_mask := Nat.and_le_right
    _ < T.nodes.length := by omega

/-- Two keys found at the same position are byte-equal: `get_pos` returns a
    position whose stored bytes are the query key. -/
theorem get_pos_inj {V : Type} (h : ByteStr → Nat) (T : Table V) (k k' : ByteStr)
    (p : Nat) (hp : T.get_pos h k = some p) (hp' : T.get_pos h k' = some p) :
    k = k' := by
  obtain ⟨nd, hnd, hb⟩ := get_pos_some_spec h T k p hp
  obtain ⟨nd', hnd', hb'⟩ := get_pos_some_spec h T k' p hp'
  rw [hnd] at hnd'
  cases hnd'
  rw [← hb, hb']

/-- Master lemma for the probe loop of `Table::build`: if some position of
    the probe sequence (within the fuel) is empty, `findFree` returns the
    first empty one, every earlier probed slot being occupied. -/
theorem findFree_stop (mapping : List (Option Nat)) (mask b : Nat)
    (hc : mapping.length = 2 ^ b) (hm : mask = mapping.length - 1) :
    ∀ (e fuel home : Nat), home < mapping.length → e < fuel →
      mapping.getD ((home + e) % mapping.length) none = none →
      ∃ d, d ≤ e ∧
        (∀ t, t < d → (mapping.getD ((home + t) % mapping.length) none).isSome) ∧
        mapping.getD ((home + d) % mapping.length) none = none ∧
        findFree mapping mask fuel home = (home + d) % mapping.length := by
  intro e
  induction e with
  | zero =>
    intro fuel home hhome hfuel hstop
    obtain ⟨f, rfl⟩ : ∃ f, fuel = f + 1 := ⟨fuel - 1, by omega⟩
    have hmod : (home + 0) % mapping.length = home := by
      rw [Nat.add_zero]
      exact Nat.mod_eq_of_lt hhome
    rw [hmod] at hstop
    refine ⟨0, le_rfl, fun t ht => absurd ht (Nat.not_lt_zero t), ?_, ?_⟩
    · rw [hmod]
      exact hstop
    · rw [hmod]
      simp only [findFree, hstop]
  | succ e ih =>
    intro fuel home hhome hfuel hstop
    obtain ⟨f, rfl⟩ : ∃ f, fuel = f + 1 := ⟨fuel - 1, by omega⟩
    have hmod : (home + 0) % mapping.length = home := by
      rw [Nat.add_zero]
      exact Nat.mod_eq_of_lt hhome
    cases hslot : mapping.getD home none with
    | none =>
      refine ⟨0, by omega, fun t ht => absurd ht (Nat.not_lt_zero t), ?_, ?_⟩
      · rw [hmod]
        exact hslot
      · rw [hmod]
        simp only [findFree, hslot]
    | some j =>
      have hstep : (home + 1) &&& mask = (home + 1) % mapping.length := by
        rw [hm, hc]
        exact Nat.and_pow_two_sub_one_eq_mod (home + 1) b
      have hc0 : 0 < mapping.length := by omega
      have hhome1 : (home + 1) % mapping.length < mapping.length := Nat.mod_lt _ hc0
      have hstop1 : mapping.getD
          (((home + 1) % mapping.length + e) % mapping.length) none = none := by
        rw [shift_mod]
        exact hstop
      obtain ⟨d, hdle, hpre, hempty, hres⟩ := ih f ((home + 1) % mapping.length) hhome1
        (by omega) hstop1
      have hloop : findFree mapping mask (f + 1) home
          = findFree mapping mask f ((home + 1) % mapping.length) := by
        simp only [findFree, hslot, hstep]
      refine ⟨d + 1, by omega, ?_, ?_, ?_⟩
      · intro t ht
        cases t with
        | zero =>
          rw [hmod, hslot]
          simp
        | succ t =>
          have := hpre t (by omega)
          rwa [shift_mod] at this
      · rw [← shift_mod]
        exact hempty
      · rw [hloop, hres, shift_mod]

theorem getD_isSome_lt {α : Type} (l : List (Option α)) (q : Nat)
    (hq : (l.getD q none).isSome) : q < l.length := by
  by_contra hge
  push_neg at hge
  rw [List.getD_eq_getElem?_getD, List.getElem?_eq_none hge] at hq
  simp at hq

theorem getD_some_lt {α : Type} (l : List (Option α)) (q : Nat) (x : α)
    (hq : l.getD q none = some x) : q < l.length :=
  getD_isSome_lt l q (by rw [hq]; rfl)

theorem isSome_getD_set {α : Type} (l : List (Option α)) (pos q : Nat) (x : α)
    (hq : (l.getD q none).isSome) : ((l.set pos (some x)).getD q none).isSome := by
  have hqlt : q < l.length := getD_isSome_lt l q hq
  by_cases hpq : pos = q
  · subst hpq
    rw [getD_set_self l pos (some x) none hqlt]
    rfl
  · rw [getD_set_ne l (some x) none hpq]
    exact hq

theorem getD_append_length {α : Type} :
    ∀ (pre : List α) (x : α) (rest : List α) (d : α),
      (pre ++ x :: rest).getD pre.length d = x := by
  intro pre
  induction pre with
  | nil => intro x rest d; rfl
  | cons a t ih =>
    intro x rest d
    simpa [List.getD_cons_succ] using ih x rest d

theorem getD_mem {α : Type} (l : List α) (j : Nat) (d : α) (hj : j < l.length) :
    l.getD j d ∈ l := by
  rw [List.getD_eq_getElem?_getD, List.getElem?_eq_getElem hj]
  simp

theorem insertKeys_inv (h : ByteStr → Nat) (keys : List ByteStr) :
    ∀ (rest pre : List ByteStr) (mapping : List (Option Nat)),
      keys = pre ++ rest →
      MappingInv h keys mapping pre.length →
      MappingInv h keys
        (insertKeys h (capacityOf keys.length - 1) mapping rest pre.length)
        keys.length := by
  intro rest
  induction rest with
  | nil =>
    intro pre mapping hkeys hinv
    have hlen : pre.length = keys.length := by
      rw [hkeys, List.append_nil]
    rw [insertKeys, ← hlen]
    exact hinv
  | cons key rest ih =>
    intro pre mapping hkeys hinv
    obtain ⟨b, hb⟩ : ∃ b, capacityOf keys.length = 2 ^ b := ⟨_, rfl⟩
    have hmlen : mapping.length = capacityOf keys.length := hinv.len
    have hm2 : mapping.length = 2 ^ b := by rw [hmlen, hb]
    have hm0 : 0 < mapping.length := by rw [hm2]; exact Nat.two_pow_pos b
    have hi_lt_n : pre.length < keys.length := by
      rw [hkeys, List.length_append, List.length_cons]
      omega
    have hn_lt_c : keys.length < capacityOf keys.length := lt_capacityOf _
    have hkey_eq : keys.getD pre.length [] = key := by
      rw [hkeys]
      exact getD_append_length pre key rest []
    -- an empty slot exists, so findFree stops at the first empty probed slot
    obtain ⟨p0, hp0lt, hp0⟩ := exists_none_of_countP_lt mapping (by
      rw [hinv.count, hmlen]
      omega)
    have hhome : (h key &&& (capacityOf keys.length - 1)) < mapping.length := by
      have hmask : h key &&& (capacityOf keys.length - 1) = h key % 2 ^ b := by
        rw [hb]
        exact Nat.and_pow_two_sub_one_eq_mod (h key) b
      rw [hmask, hm2]
      exact Nat.mod_lt _ (Nat.two_pow_pos b)
    obtain ⟨e, helt, heeq⟩ := offset_exists hhome hp0lt
    obtain ⟨d, hdle, hpre_occ, hempty, hff⟩ :=
      findFree_stop mapping (capacityOf keys.length - 1) b hm2 (by omega)
        e mapping.length (h key &&& (capacityOf keys.length - 1)) hhome helt
        (by rw [heeq]; exact hp0)
    have hpos_lt : ((h key &&& (capacityOf keys.length - 1)) + d) % mapping.length
        < mapping.length := Nat.mod_lt _ hm0
    -- the updated mapping after placing key index `pre.length`
    have hstep : insertKeys h (capacityOf keys.length - 1) mapping (key :: rest) pre.length
        = insertKeys h (capacityOf keys.length - 1)
            (mapping.set (((h key &&& (capacityOf keys.length - 1)) + d) % mapping.length)
              (some pre.length)) rest (pre.length + 1) := by
      rw [insertKeys, hff]
    rw [hstep]
    have hkeys' : keys = (pre ++ [key]) ++ rest := by
      rw [hkeys, List.append_assoc]
      rfl
    have hlen' : (pre ++ [key]).length = pre.length + 1 := by simp
    refine hlen' ▸ ih (pre ++ [key])
      (mapping.set (((h key &&& (capacityOf keys.length - 1)) + d) % mapping.length)
        (some pre.length)) hkeys' ?_
    rw [hlen']
    constructor
    case len => rw [List.length_set, hmlen]
    case count =>
      rw [countP_set_some mapping _ pre.length hpos_lt hempty, hinv.count]
    case idx =>
      intro p j hpj
      by_cases hppos : ((h key &&& (capacityOf keys.length - 1)) + d) % mapping.length = p
      · rw [← hppos, getD_set_self mapping _ (some pre.length) none hpos_lt] at hpj
        cases hpj
        omega
      · rw [getD_set_ne mapping (some pre.length) none hppos] at hpj
        have := hinv.idx p j hpj
        omega
    case all =>
      intro j hj
      by_cases hjtop : j = pre.length
      · subst hjtop
        refine ⟨((h key &&& (capacityOf keys.length - 1)) + d) % mapping.length, ?_, ?_⟩
        · rw [List.length_set]
          exact hpos_lt
        · exact getD_set_self mapping _ (some pre.length) none hpos_lt
      · obtain ⟨p, hplt, hp⟩ := hinv.all j (by omega)
        have hppos : ((h key &&& (capacityOf keys.length - 1)) + d) % mapping.length ≠ p := by
          intro hcontra
          rw [hcontra] at hempty
          rw [hempty] at hp
          exact Option.noConfusion hp
        refine ⟨p, by rw [List.length_set]; exact hplt, ?_⟩
        rw [getD_set_ne mapping (some pre.length) none hppos]
        exact hp
    case path =>
      intro p j hpj
      by_cases hppos : ((h key &&& (capacityOf keys.length - 1)) + d) % mapping.length = p
      · rw [← hppos, getD_set_self mapping _ (some pre.length) none hpos_lt] at hpj
        cases hpj
        refine ⟨d, ?_, ?_, ?_⟩
        · rw [List.length_set]
          omega
        · rw [← hppos, List.length_set, hkey_eq]
        · intro t ht
          rw [List.length_set, hkey_eq]
          exact isSome_getD_set mapping _ _ pre.length (hpre_occ t ht)
      · rw [getD_set_ne mapping (some pre.length) none hppos] at hpj
        obtain ⟨d', hd'lt, hd'eq, hd'pre⟩ := hinv.path p j hpj
        refine ⟨d', ?_, ?_, ?_⟩
        · rw [List.length_set]
          exact hd'lt
        · rw [List.length_set]
          exact hd'eq
        · intro t ht
          rw [List.length_set]
          exact isSome_getD_set mapping _ _ pre.length (hd'pre t ht)

theorem buildMapping_inv (h : ByteStr → Nat) (keys : List ByteStr) :
    MappingInv h keys (buildMapping h keys) keys.length := by
  have base : MappingInv h keys (List.replicate (capacityOf keys.length) none) 0 := by
    constructor
    case len => simp
    case count =>
      rw [List.countP_eq_zero]
      intro a ha
      rw [List.eq_of_mem_replicate ha]
      simp
    case idx =>
      intro p j hpj
      rw [getD_replicate_none] at hpj
      exact Option.noConfusion hpj
    case all => intro j hj; omega
    case path =>
      intro p j hpj
      rw [getD_replicate_none] at hpj
      exact Option.noConfusion hpj
  have := insertKeys_inv h keys keys [] (List.replicate (capacityOf keys.length) none)
    (by simp) base
  exact this

/-- Specification of the second pass of `Table::build`: the node list mirrors
    the occupancy of the slot assignment; every node's byte range is in
    bounds, reproduces its key exactly, and is disjoint from (and left of)
    the ranges of later slots; the byte buffer grows by appending only. -/
theorem buildNodes_spec {V : Type} [Inhabited V] (keys : List ByteStr) :
    ∀ (mapping : List (Option Nat)) (bytes0 : List Nat)
      (ns : List (Option (MapNode V))) (bs : List Nat),
      buildNodes keys mapping bytes0 = (ns, bs) →
      ns.length = mapping.length ∧
      (∃ suf, bs = bytes0 ++ suf) ∧
      (∀ p, mapping.getD p none = none → ns.getD p none = none) ∧
      (∀ p j, mapping.getD p none = some j →
        ∃ nd, ns.getD p none = some nd ∧
          nd.len = (keys.getD j []).length ∧
          bytes0.length ≤ nd.ptr ∧
          nd.ptr + nd.len ≤ bs.length ∧
          (bs.drop nd.ptr).take nd.len = keys.getD j []) ∧
      (∀ p q ndp ndq, p < q → ns.getD p none = some ndp → ns.getD q none = some ndq →
        ndp.ptr + ndp.len ≤ ndq.ptr) := by
  intro mapping
  induction mapping with
  | nil =>
    intro bytes0 ns bs heq
    rw [buildNodes] at heq
    cases heq
    refine ⟨rfl, ⟨[], by simp⟩, ?_, ?_, ?_⟩
    · intro p _
      cases p <;> rfl
    · intro p j hpj
      cases p <;> exact Option.noConfusion hpj
    · intro p q ndp ndq _ hp
      cases p <;> exact Option.noConfusion hp
  | cons head rest ih =>
    intro bytes0 ns bs heq
    cases head with
    | none =>
      cases hr : buildNodes (V := V) keys rest bytes0 with
      | mk ns' bs' =>
        rw [buildNodes, hr] at heq
        cases heq
        obtain ⟨ihlen, ihsuf, ihnone, ihsome, ihovl⟩ := ih bytes0 ns' bs' hr
        refine ⟨by simp [ihlen], ihsuf, ?_, ?_, ?_⟩
        · intro p hp
          cases p with
          | zero => rfl
          | succ p =>
            rw [List.getD_cons_succ] at hp ⊢
            exact ihnone p hp
        · intro p j hpj
          cases p with
          | zero => exact Option.noConfusion hpj
          | succ p =>
            rw [List.getD_cons_succ] at hpj ⊢
            exact ihsome p j hpj
        · intro p q ndp ndq hpq hp hq
          cases p with
          | zero => exact Option.noConfusion hp
          | succ p =>
            cases q with
            | zero => omega
            | succ q =>
              rw [List.getD_cons_succ] at hp hq
              exact ihovl p q ndp ndq (by omega) hp hq
    | some j0 =>
      cases hr : buildNodes (V := V) keys rest (bytes0 ++ keys.getD j0 []) with
      | mk ns' bs' =>
        rw [buildNodes, hr] at heq
        cases heq
        obtain ⟨ihlen, ihsuf, ihnone, ihsome, ihovl⟩ := ih (bytes0 ++ keys.getD j0 []) ns' bs' hr
        obtain ⟨suf, hsuf⟩ := ihsuf
        have hbs_len : bytes0.length + (keys.getD j0 []).length ≤ bs'.length := by
          rw [hsuf]
          simp
        -- every occupied slot of the tail has its range right of the head range
        have htail_ptr : ∀ q ndq, ns'.getD q none = some ndq →
            bytes0.length + (keys.getD j0 []).length ≤ ndq.ptr := by
          intro q ndq hq
          cases hrest : rest.getD q none with
          | none =>
            rw [ihnone q hrest] at hq
            exact Option.noConfusion hq
          | some j' =>
            obtain ⟨nd', hnd', _, hptr', _, _⟩ := ihsome q j' hrest
            rw [hq] at hnd'
            cases hnd'
            simpa using hptr'
        refine ⟨by simp [ihlen], ⟨keys.getD j0 [] ++ suf, by rw [hsuf, List.append_assoc]⟩,
          ?_, ?_, ?_⟩
        · intro p hp
          cases p with
          | zero => exact Option.noConfusion hp
          | succ p =>
            rw [List.getD_cons_succ] at hp ⊢
            exact ihnone p hp
        · intro p j hpj
          cases p with
          | zero =>
            rw [List.getD_cons_zero] at hpj
            cases hpj
            refine ⟨⟨bytes0.length, (keys.getD j0 []).length, default⟩,
              List.getD_cons_zero, rfl, le_rfl, hbs_len, ?_⟩
            rw [hsuf]
            have := slice_append (bytes0 ++ keys.getD j0 []) suf bytes0.length
              (keys.getD j0 []).length (by simp)
            rw [this]
            exact slice_at_end bytes0 (keys.getD j0 [])
          | succ p =>
            rw [List.getD_cons_succ] at hpj ⊢
            obtain ⟨nd, hnd, hlen, hptr, hbound, hslice⟩ := ihsome p j hpj
            refine ⟨nd, hnd, hlen, ?_, hbound, hslice⟩
            rw [List.length_append] at hptr
            omega
        · intro p q ndp ndq hpq hp hq
          cases p with
          | zero =>
            rw [List.getD_cons_zero] at hp
            cases hp
            cases q with
            | zero => omega
            | succ q =>
              rw [List.getD_cons_succ] at hq
              simpa using htail_ptr q ndq hq
          | succ p =>
            cases q with
            | zero => omega
            | succ q =>
              rw [List.getD_cons_succ] at hp hq
              exact ihovl p q ndp ndq (by omega) hp hq

/- Facts about built tables.  They are stated for a table `T` equal to
   `Table.build V h keys` so that statements stay readable. -/

theorem build_nodes_length {V : Type} [Inhabited V] (h : ByteStr → Nat)
    (keys : List ByteStr) (T : Table V) (hT : T = Table.build V h keys) :
    T.nodes.length = capacityOf keys.length := by
  subst hT
  have spec := buildNodes_spec (V := V) keys (buildMapping h keys) []
    (buildNodes (V := V) keys (buildMapping h keys) []).1
    (buildNodes (V := V) keys (buildMapping h keys) []).2 rfl
  exact spec.1.trans (buildMapping_inv h keys).len

theorem build_mask {V : Type} [Inhabited V] (h : ByteStr → Nat)
    (keys : List ByteStr) (T : Table V) (hT : T = Table.build V h keys) :
    T.capacity_mask = T.nodes.length - 1 := by
  rw [build_nodes_length h keys T hT, hT]
  rfl

theorem build_pow {V : Type} [Inhabited V] (h : ByteStr → Nat)
    (keys : List ByteStr) (T : Table V) (hT : T = Table.build V h keys) :
    ∃ b, T.nodes.length = 2 ^ b := by
  rw [build_nodes_length h keys T hT]
  exact ⟨_, rfl⟩

theorem build_num_keys {V : Type} [Inhabited V] (h : ByteStr → Nat)
    (keys : List ByteStr) (T : Table V) (hT : T = Table.build V h keys) :
    T.num_keys = keys.length := by
  subst hT
  rfl

theorem build_occ_none {V : Type} [Inhabited V] (h : ByteStr → Nat)
    (keys : List ByteStr) (T : Table V) (hT : T = Table.build V h keys)
    (p : Nat) (hp : (buildMapping h keys).getD p none = none) :
    T.nodes.getD p none = none := by
  subst hT
  have spec := buildNodes_spec (V := V) keys (buildMapping h keys) []
    (buildNodes (V := V) keys (buildMapping h keys) []).1
    (buildNodes (V := V) keys (buildMapping h keys) []).2 rfl
  exact spec.2.2.1 p hp

theorem build_occ_some {V : Type} [Inhabited V] (h : ByteStr → Nat)
    (keys : List ByteStr) (T : Table V) (hT : T = Table.build V h keys)
    (p j : Nat) (hp : (buildMapping h keys).getD p none = some j) :
    ∃ nd, T.nodes.getD p none = some nd ∧
      nd.len = (keys.getD j []).length ∧
      nd.ptr + nd.len ≤ T.bytes.length ∧
      T.get_bytes nd = keys.getD j [] := by
  subst hT
  have spec := buildNodes_spec (V := V) keys (buildMapping h keys) []
    (buildNodes (V := V) keys (buildMapping h keys) []).1
    (buildNodes (V := V) keys (buildMapping h keys) []).2 rfl
  obtain ⟨nd, hnd, hlen, _, hbound, hslice⟩ := spec.2.2.2.1 p j hp
  exact ⟨nd, hnd, hlen, hbound, hslice⟩

theorem build_overlap {V : Type} [Inhabited V] (h : ByteStr → Nat)
    (keys : List ByteStr) (T : Table V) (hT : T = Table.build V h keys)
    (p q : Nat) (ndp ndq : MapNode V) (hpq : p < q)
    (hp : T.nodes.getD p none = some ndp) (hq : T.nodes.getD q none = some ndq) :
    ndp.ptr + ndp.len ≤ ndq.ptr := by
  subst hT
  have spec := buildNodes_spec (V := V) keys (buildMapping h keys) []
    (buildNodes (V := V) keys (buildMapping h keys) []).1
    (buildNodes (V := V) keys (buildMapping h keys) []).2 rfl
  exact spec.2.2.2.2 p q ndp ndq hpq hp hq

theorem build_slot_key {V : Type} [Inhabited V] (h : ByteStr → Nat)
    (keys : List ByteStr) (T : Table V) (hT : T = Table.build V h keys)
    (p : Nat) (nd : MapNode V) (hp : T.nodes.getD p none = some nd) :
    ∃ j, j < keys.length ∧ (buildMapping h keys).getD p none = some j ∧
      T.get_bytes nd = keys.getD j [] := by
  have inv := buildMapping_inv h keys
  cases hM : (buildMapping h keys).getD p none with
  | none =>
    rw [build_occ_none h keys T hT p hM] at hp
    exact Option.noConfusion hp
  | some j =>
    obtain ⟨nd', hnd', _, _, hbytes⟩ := build_occ_some h keys T hT p j hM
    rw [hp] at hnd'
    cases hnd'
    exact ⟨j, inv.idx p j hM, rfl, hbytes⟩

theorem build_empty_slot {V : Type} [Inhabited V] (h : ByteStr → Nat)
    (keys : List ByteStr) (T : Table V) (hT : T = Table.build V h keys) :
    ∃ p, p < T.nodes.length ∧ T.nodes.getD p none = none := by
  have inv := buildMapping_inv h keys
  obtain ⟨p, hplt, hp⟩ := exists_none_of_countP_lt (buildMapping h keys) (by
    rw [inv.count, inv.len]
    exact lt_capacityOf _)
  refine ⟨p, ?_, build_occ_none h keys T hT p hp⟩
  rw [build_nodes_length h keys T hT]
  rw [inv.len] at hplt
  exact hplt

theorem build_home_lt {V : Type} [Inhabited V] (h : ByteStr → Nat)
    (keys : List ByteStr) (T : Table V) (hT : T = Table.build V h keys)
    (x : Nat) : x &&& T.capacity_mask < T.nodes.length := by
  have h0 : 0 < T.nodes.length := by
    rw [build_nodes_length h keys T hT]
    exact capacityOf_pos _
  have := build_mask h keys T hT
  calc x &&& T.capacity_mask ≤ T.capacity_mask := Nat.and_le_right
    _ < T.nodes.length := by omega

/-- Characterization of `get_pos` on a built table: the probe sequence from
    the hashed home position has a first stop `d` within the capacity; every
    earlier probed slot is occupied by bytes different from the key, and the
    lookup answers "not found" or the position of the stop according to
    whether the stop is an empty slot or a byte match. -/
theorem build_probe_char {V : Type} [Inhabited V] (h : ByteStr → Nat)
    (keys : List ByteStr) (T : Table V) (hT : T = Table.build V h keys)
    (k : ByteStr) :
    ∃ d, d < T.nodes.length ∧
      (∀ t, t < d → ∃ nd,
        T.nodes.getD (((h k &&& T.capacity_mask) + t) % T.nodes.length) none = some nd ∧
          T.get_bytes nd ≠ k) ∧
      ((T.nodes.getD (((h k &&& T.capacity_mask) + d) % T.nodes.length) none = none ∧
          T.get_pos h k = none) ∨
        (∃ nd,
          T.nodes.getD (((h k &&& T.capacity_mask) + d) % T.nodes.length) none = some nd ∧
          T.get_bytes nd = k ∧
          T.get_pos h k = some (((h k &&& T.capacity_mask) + d) % T.nodes.length))) := by
  obtain ⟨b, hb⟩ := build_pow h keys T hT
  have hm := build_mask h keys T hT
  have hhome := build_home_lt h keys T hT (h k)
  obtain ⟨p0, hp0lt, hp0⟩ := build_empty_slot h keys T hT
  obtain ⟨e, helt, heeq⟩ := offset_exists hhome hp0lt
  obtain ⟨d, hdle, hpre, hres⟩ := probeLoop_stop T k b hb hm e T.nodes.length
    (h k &&& T.capacity_mask) hhome helt (Or.inl (by rw [heeq]; exact hp0))
  refine ⟨d, by omega, hpre, ?_⟩
  rcases hres with ⟨hempty, hloop⟩ | ⟨nd, hnd, hbytes, hloop⟩
  · exact Or.inl ⟨hempty, by rw [Table.get_pos, hloop]; rfl⟩
  · exact Or.inr ⟨nd, hnd, hbytes, by rw [Table.get_pos, hloop]; rfl⟩

/-- Every input key is found by `get_pos` on the built table, at a position
    whose stored bytes are exactly that key (this holds with duplicate input
    keys as well). -/
theorem build_found {V : Type} [Inhabited V] (h : ByteStr → Nat)
    (keys : List ByteStr) (T : Table V) (hT : T = Table.build V h keys)
    (j : Nat) (hj : j < keys.length) :
    ∃ p, T.get_pos h (keys.getD j []) = some p ∧
      ∃ nd, T.nodes.getD p none = some nd ∧ T.get_bytes nd = keys.getD j [] := by
  have inv := buildMapping_inv h keys
  obtain ⟨b, hb⟩ := build_pow h keys T hT
  have hm := build_mask h keys T hT
  have hhome := build_home_lt h keys T hT (h (keys.getD j []))
  have hMlen : (buildMapping h keys).length = capacityOf keys.length := inv.len
  have hnl := build_nodes_length h keys T hT
  have hmask_eq : T.capacity_mask = capacityOf keys.length - 1 := by rw [hT]; rfl
  obtain ⟨p0, _, hp0⟩ := inv.all j hj
  obtain ⟨d, hdlt, hdeq, hdpre⟩ := inv.path p0 j hp0
  obtain ⟨nd0, hnd0, _, _, hnd0bytes⟩ := build_occ_some h keys T hT p0 j hp0
  -- the slot holding key j sits at offset d of the probe sequence
  have hpos_eq : p0 = ((h (keys.getD j []) &&& T.capacity_mask) + d) % T.nodes.length := by
    rw [hMlen] at hdeq
    rw [hmask_eq, hnl]
    exact hdeq
  obtain ⟨d', hd'le, hpre', hres⟩ := probeLoop_stop T (keys.getD j []) b hb hm d
    T.nodes.length (h (keys.getD j []) &&& T.capacity_mask) hhome
    (by rw [hnl, ← hMlen]; exact hdlt)
    (Or.inr ⟨nd0, by rw [← hpos_eq]; exact hnd0, hnd0bytes⟩)
  rcases hres with ⟨hempty, _⟩ | ⟨nd, hnd, hbytes, hloop⟩
  · -- an empty slot cannot occur at or before the slot holding key j
    exfalso
    rcases Nat.lt_or_ge d' d with hlt | hge
    · have hocc := hdpre d' hlt
      rw [← hmask_eq] at hocc
      rw [hMlen, ← hnl] at hocc
      cases hM : (buildMapping h keys).getD
          (((h (keys.getD j []) &&& T.capacity_mask) + d') % T.nodes.length) none with
      | none =>
        rw [hM] at hocc
        simp at hocc
      | some j' =>
        obtain ⟨nd', hnd', _, _, _⟩ := build_occ_some h keys T hT _ j' hM
        rw [hnd'] at hempty
        exact Option.noConfusion hempty
    · have : d' = d := by omega
      subst this
      rw [← hpos_eq, hnd0] at hempty
      exact Option.noConfusion hempty
  · refine ⟨((h (keys.getD j []) &&& T.capacity_mask) + d') % T.nodes.length, ?_, nd, hnd, hbytes⟩
    rw [Table.get_pos, hloop]
    rfl

/-- A key that is not among the input keys is not found. -/
theorem build_not_mem {V : Type} [Inhabited V] (h : ByteStr → Nat)
    (keys : List ByteStr) (T : Table V) (hT : T = Table.build V h keys)
    (q : ByteStr) (hq : q ∉ keys) : T.get_pos h q = none := by
  obtain ⟨d, _, _, hres⟩ := build_probe_char h keys T hT q
  rcases hres with ⟨_, hnone⟩ | ⟨nd, hnd, hbytes, _⟩
  · exact hnone
  · exfalso
    obtain ⟨j, hjlt, _, hkey⟩ := build_slot_key h keys T hT _ nd hnd
    rw [hkey] at hbytes
    exact hq (hbytes ▸ getD_mem keys j [] hjlt)

theorem shapeEq_refl {V : Type} (T : Table V) : ShapeEq T T :=
  ⟨rfl, rfl, rfl, rfl, fun _ => rfl⟩

theorem shapeEq_trans {V : Type} {T T' T'' : Table V}
    (h1 : ShapeEq T T') (h2 : ShapeEq T' T'') : ShapeEq T T'' := by
  obtain ⟨b1, m1, l1, n1, s1⟩ := h1
  obtain ⟨b2, m2, l2, n2, s2⟩ := h2
  exact ⟨b2.trans b1, m2.trans m1, l2.trans l1, n2.trans n1,
    fun q => (s2 q).trans (s1 q)⟩

theorem shapeEq_occ_none {V : Type} {T T' : Table V} (hs : ShapeEq T T') (q : Nat)
    (hq : T.nodes.getD q none = none) : T'.nodes.getD q none = none := by
  have := hs.2.2.2.2 q
  rw [hq] at this
  cases hx : T'.nodes.getD q none with
  | none => rfl
  | some nd =>
    rw [hx] at this
    exact Option.noConfusion this

theorem shapeEq_occ_some {V : Type} {T T' : Table V} (hs : ShapeEq T T') (q : Nat)
    (nd : MapNode V) (hq : T.nodes.getD q none = some nd) :
    ∃ nd', T'.nodes.getD q none = some nd' ∧ nd'.ptr = nd.ptr ∧ nd'.len = nd.len := by
  have := hs.2.2.2.2 q
  rw [hq] at this
  cases hx : T'.nodes.getD q none with
  | none =>
    rw [hx] at this
    exact Option.noConfusion this
  | some nd' =>
    rw [hx] at this
    simp at this
    exact ⟨nd', rfl, this.1, this.2⟩

/-- Writing a payload into an occupied slot preserves the shape. -/
theorem shapeEq_write {V : Type} (T : Table V) (pos : Nat) (nd : MapNode V) (v : V)
    (hnd : T.nodes.getD pos none = some nd) :
    ShapeEq T { T with nodes := T.nodes.set pos (some { nd with val := v }) } := by
  have hlt : pos < T.nodes.length := getD_some_lt _ _ _ hnd
  refine ⟨rfl, rfl, by simp, rfl, ?_⟩
  intro q
  by_cases hq : pos = q
  · subst hq
    rw [getD_set_self T.nodes pos _ none hlt, hnd]
    rfl
  · rw [getD_set_ne T.nodes _ none hq]

/-- The lookup loop only inspects the shape of the table. -/
theorem probeLoop_shapeEq {V : Type} {T T' : Table V} (hs : ShapeEq T T') (k : ByteStr) :
    ∀ (fuel pos : Nat), probeLoop T' k fuel pos = probeLoop T k fuel pos := by
  intro fuel
  induction fuel with
  | zero => intro pos; rfl
  | succ fuel ih =>
    intro pos
    cases hT : T.nodes.getD pos none with
    | none =>
      have hT' := shapeEq_occ_none hs pos hT
      simp only [probeLoop, hT, hT']
    | some nd =>
      obtain ⟨nd', hT', hptr, hlen⟩ := shapeEq_occ_some hs pos nd hT
      have hbytes : T'.get_bytes nd' = T.get_bytes nd := by
        rw [Table.get_bytes, Table.get_bytes, hs.1, hptr, hlen]
      simp only [probeLoop, hT, hT', hbytes, hs.2.1]
      by_cases hb : k = T.get_bytes nd
      · simp [hb]
      · simp only [if_neg hb]
        exact ih _

theorem get_pos_shapeEq {V : Type} {T T' : Table V} (hs : ShapeEq T T')
    (h : ByteStr → Nat) (k : ByteStr) : T'.get_pos h k = T.get_pos h k := by
  rw [Table.get_pos, Table.get_pos, hs.2.1, hs.2.2.1, probeLoopShape]
where probeLoopShape : probeLoop T' k (T.nodes.length) (h k &&& T.capacity_mask)
    = probeLoop T k (T.nodes.length) (h k &&& T.capacity_mask) :=
  probeLoop_shapeEq hs k _ _

theorem get_isSome_shapeEq {V : Type} {T T' : Table V} (hs : ShapeEq T T')
    (h : ByteStr → Nat) (k : ByteStr) :
    (T'.get h k).isSome = (T.get h k).isSome := by
  rw [Table.get, Table.get, get_pos_shapeEq hs h k]
  cases hp : T.get_pos h k with
  | none => rfl
  | some p =>
    show (T'.nodes.getD p none).isSome = (T.nodes.getD p none).isSome
    cases hq : T.nodes.getD p none with
    | none => rw [shapeEq_occ_none hs p hq]
    | some nd =>
      obtain ⟨nd', hq', _, _⟩ := shapeEq_occ_some hs p nd hq
      rw [hq']
      rfl

/-- Success of the record loop of `HashMap::new`: with pairwise-distinct
    keys, all found in the reference table and none flagged yet, the loop
    succeeds; the resulting table is shape-equal, each record's value sits at
    its key's position, and all other slots are untouched. -/
theorem mapLoop_ok {V : Type} [Inhabited V] (h : ByteStr → Nat) (T0 : Table V)
    (hmask0 : T0.capacity_mask = T0.nodes.length - 1) (h00 : 0 < T0.nodes.length) :
    ∀ (l : List (ByteStr × V)) (T : Table V) (flags : List Bool),
      ShapeEq T0 T →
      (l.map Prod.fst).Pairwise (· ≠ ·) →
      (∀ r, r ∈ l → (T0.get_pos h r.1).isSome) →
      (∀ r p, r ∈ l → T0.get_pos h r.1 = some p → flags.getD p false = false) →
      ∃ T', mapLoop h T flags l = .ok T' ∧ ShapeEq T0 T' ∧
        (∀ r p, r ∈ l → T0.get_pos h r.1 = some p →
          ∃ nd, T'.nodes.getD p none = some nd ∧ nd.val = r.2) ∧
        (∀ q, (∀ r, r ∈ l → T0.get_pos h r.1 ≠ some q) →
          T'.nodes.getD q none = T.nodes.getD q none) := by
  intro l
  induction l with
  | nil =>
    intro T flags hshape _ _ _
    exact ⟨T, rfl, hshape, fun r p hr => absurd hr (List.not_mem_nil r),
      fun q _ => rfl⟩
  | cons rkv rest ih =>
    intro T flags hshape hpw hfound hflags
    obtain ⟨k, v⟩ := rkv
    have hks : (T0.get_pos h k).isSome := hfound (k, v) (List.mem_cons_self _ _)
    obtain ⟨p, hp⟩ := Option.isSome_iff_exists.mp hks
    have hTk : Table.get_pos h T k = some p := by
      rw [get_pos_shapeEq hshape h k]
      exact hp
    have hflag : flags.getD p false = false :=
      hflags (k, v) p (List.mem_cons_self _ _) hp
    obtain ⟨nd0, hnd0, _⟩ := get_pos_some_spec h T0 k p hp
    obtain ⟨nd, hnd, _, _⟩ := shapeEq_occ_some hshape p nd0 hnd0
    have hplt : p < T0.nodes.length := get_pos_some_lt h T0 k p hmask0 h00 hp
    have hne_head : ∀ r, r ∈ rest → r.1 ≠ k := by
      intro r hr hcontra
      rw [List.map_cons, List.pairwise_cons] at hpw
      exact hpw.1 r.1 (List.mem_map.mpr ⟨r, hr, rfl⟩) hcontra.symm
    have hshape1 : ShapeEq T0
        { T with nodes := T.nodes.set p (some { nd with val := v }) } :=
      shapeEq_trans hshape (shapeEq_write T p nd v hnd)
    have hflags1 : ∀ r p', r ∈ rest → T0.get_pos h r.1 = some p' →
        ((flags.set p true).getD p' false) = false := by
      intro r p' hr hp'
      have hne : p' ≠ p := by
        intro hcontra
        subst hcontra
        exact hne_head r hr (get_pos_inj h T0 r.1 k p' hp' hp)
      rw [getD_set_ne flags true false (fun hx => hne hx.symm)]
      exact hflags r p' (List.mem_cons_of_mem _ hr) hp'
    have hpw1 : (rest.map Prod.fst).Pairwise (· ≠ ·) := by
      rw [List.map_cons, List.pairwise_cons] at hpw
      exact hpw.2
    obtain ⟨T', hloop, hshape', hvals, hframe⟩ := ih
      { T with nodes := T.nodes.set p (some { nd with val := v }) }
      (flags.set p true) hshape1 hpw1
      (fun r hr => hfound r (List.mem_cons_of_mem _ hr)) hflags1
    have hstep : mapLoop h T flags ((k, v) :: rest)
        = mapLoop h { T with nodes := T.nodes.set p (some { nd with val := v }) }
            (flags.set p true) rest := by
      simp only [mapLoop, hTk, hflag, hnd, Bool.false_eq_true, if_false]
    refine ⟨T', hstep ▸ hloop, hshape', ?_, ?_⟩
    · intro r p' hr hp'
      rcases List.mem_cons.mp hr with rfl | hr'
      · have hpp : p' = p := by
          rw [hp'] at hp
          exact Option.some.inj hp
        subst hpp
        have hnohit : ∀ r', r' ∈ rest → T0.get_pos h r'.1 ≠ some p' := by
          intro r' hr' hcontra
          exact hne_head r' hr' (get_pos_inj h T0 r'.1 k p' hcontra hp)
        rw [hframe p' hnohit]
        have hlen : p' < T.nodes.length := by
          rw [hshape.2.2.1]
          exact hplt
        rw [getD_set_self T.nodes p' _ none hlen]
        exact ⟨_, rfl, rfl⟩
      · exact hvals r p' hr' hp'
    · intro q hq
      have hq_rest : ∀ r, r ∈ rest → T0.get_pos h r.1 ≠ some q := by
        intro r hr
        exact hq r (List.mem_cons_of_mem _ hr)
      rw [hframe q hq_rest]
      have hq_head : p ≠ q := by
        intro hcontra
        exact hq (k, v) (List.mem_cons_self _ _) (hcontra ▸ hp)
      rw [getD_set_ne T.nodes _ none hq_head]

/-- The record loop never reaches the `unwrap` panic when every key is
    found in the reference table. -/
theorem mapLoop_no_panic {V : Type} [Inhabited V] (h : ByteStr → Nat) (T0 : Table V) :
    ∀ (l : List (ByteStr × V)) (T : Table V) (flags : List Bool),
      ShapeEq T0 T →
      (∀ r, r ∈ l → (T0.get_pos h r.1).isSome) →
      mapLoop h T flags l ≠ .error .unwrapPanic := by
  intro l
  induction l with
  | nil =>
    intro T flags _ _ hcontra
    exact Except.noConfusion hcontra
  | cons rkv rest ih =>
    intro T flags hshape hfound hcontra
    obtain ⟨k, v⟩ := rkv
    obtain ⟨p, hp⟩ := Option.isSome_iff_exists.mp (hfound (k, v) (List.mem_cons_self _ _))
    have hTk : Table.get_pos h T k = some p := by
      rw [get_pos_shapeEq hshape h k]
      exact hp
    obtain ⟨nd, hnd, _⟩ := get_pos_some_spec h T k p hTk
    rw [mapLoop, hTk] at hcontra
    simp only [hnd] at hcontra
    by_cases hflag : flags.getD p false = true
    · rw [if_pos hflag] at hcontra
      simp at hcontra
    · rw [if_neg hflag] at hcontra
      exact ih { T with nodes := T.nodes.set p (some { nd with val := v }) }
        (flags.set p true)
        (shapeEq_trans hshape (shapeEq_write T p nd v hnd))
        (fun r hr => hfound r (List.mem_cons_of_mem _ hr)) hcontra

/-- If the record loop succeeds, the processed keys are pairwise distinct
    (and none of their positions was flagged at the start). -/
theorem mapLoop_ok_pairwise {V : Type} [Inhabited V] (h : ByteStr → Nat) (T0 : Table V)
    (hmask0 : T0.capacity_mask = T0.nodes.length - 1) (h00 : 0 < T0.nodes.length) :
    ∀ (l : List (ByteStr × V)) (T : Table V) (flags : List Bool) (T' : Table V),
      ShapeEq T0 T → flags.length = T0.nodes.length →
      mapLoop h T flags l = .ok T' →
      (∀ r, r ∈ l → ∃ p, T0.get_pos h r.1 = some p ∧ flags.getD p false = false) ∧
      (l.map Prod.fst).Pairwise (· ≠ ·) := by
  intro l
  induction l with
  | nil =>
    intro T flags T' _ _ _
    exact ⟨fun r hr => absurd hr (List.not_mem_nil r), List.Pairwise.nil⟩
  | cons rkv rest ih =>
    intro T flags T' hshape hflen hok
    obtain ⟨k, v⟩ := rkv
    rw [mapLoop] at hok
    cases hTk : Table.get_pos h T k with
    | none =>
      simp only [hTk] at hok
      exact Except.noConfusion hok
    | some p =>
      simp only [hTk] at hok
      have hp0 : T0.get_pos h k = some p := by
        rw [← get_pos_shapeEq hshape h k]
        exact hTk
      have hplt : p < flags.length := by
        rw [hflen]
        exact get_pos_some_lt h T0 k p hmask0 h00 hp0
      by_cases hflag : flags.getD p false = true
      · rw [if_pos hflag] at hok
        exact Except.noConfusion hok
      · rw [if_neg hflag] at hok
        cases hnd : T.nodes.getD p none with
        | none =>
          simp only [hnd] at hok
          exact Except.noConfusion hok
        | some nd =>
          simp only [hnd] at hok
          obtain ⟨hrest_flags, hrest_pw⟩ := ih
            { T with nodes := T.nodes.set p (some { nd with val := v }) }
            (flags.set p true) T'
            (shapeEq_trans hshape (shapeEq_write T p nd v hnd))
            (by rw [List.length_set]; exact hflen) hok
          have hrest_unset : ∀ r, r ∈ rest →
              ∃ p', T0.get_pos h r.1 = some p' ∧ flags.getD p' false = false ∧ p' ≠ p := by
            intro r hr
            obtain ⟨p', hp', hpflag⟩ := hrest_flags r hr
            have hne : p' ≠ p := by
              intro hcontra
              subst hcontra
              rw [getD_set_self flags p' true false hplt] at hpflag
              exact Bool.noConfusion hpflag
            rw [getD_set_ne flags true false (fun hx => hne hx.symm)] at hpflag
            exact ⟨p', hp', hpflag, hne⟩
          constructor
          · intro r hr
            rcases List.mem_cons.mp hr with rfl | hr'
            · exact ⟨p, hp0, Bool.not_eq_true _ ▸ hflag⟩
            · obtain ⟨p', hp', hpflag, _⟩ := hrest_unset r hr'
              exact ⟨p', hp', hpflag⟩
          · rw [List.map_cons, List.pairwise_cons]
            refine ⟨?_, hrest_pw⟩
            intro k' hk' hcontra
            obtain ⟨r, hr, rfl⟩ := List.mem_map.mp hk'
            obtain ⟨p', hp', _, hne⟩ := hrest_unset r hr
            rw [← hcontra] at hp'
            rw [hp'] at hp0
            exact hne (Option.some.inj hp0)

/-- The record loop only reports duplicate keys or the unwrap panic. -/
theorem mapLoop_error_cases {V : Type} [Inhabited V] (h : ByteStr → Nat) :
    ∀ (l : List (ByteStr × V)) (T : Table V) (flags : List Bool) (e : BuildError),
      mapLoop h T flags l = .error e →
      e = BuildError.duplicateKey ∨ e = BuildError.unwrapPanic := by
  intro l
  induction l with
  | nil =>
    intro T flags e hcontra
    exact Except.noConfusion hcontra
  | cons rkv rest ih =>
    intro T flags e herr
    obtain ⟨k, v⟩ := rkv
    rw [mapLoop] at herr
    cases hTk : Table.get_pos h T k with
    | none =>
      simp only [hTk] at herr
      exact Or.inr (Except.error.inj herr).symm
    | some p =>
      simp only [hTk] at herr
      by_cases hflag : flags.getD p false = true
      · rw [if_pos hflag] at herr
        exact Or.inl (Except.error.inj herr).symm
      · rw [if_neg hflag] at herr
        cases hnd : T.nodes.getD p none with
        | none =>
          simp only [hnd] at herr
          exact Or.inr (Except.error.inj herr).symm
        | some nd =>
          simp only [hnd] at herr
          exact ih _ _ e herr

/-- An error aborts the record loop: records after the failing one are not
    processed and cannot change the outcome. -/
theorem mapLoop_error_append {V : Type} [Inhabited V] (h : ByteStr → Nat) :
    ∀ (l : List (ByteStr × V)) (T : Table V) (flags : List Bool) (e : BuildError)
      (post : List (ByteStr × V)),
      mapLoop h T flags l = .error e →
      mapLoop h T flags (l ++ post) = .error e := by
  intro l
  induction l with
  | nil =>
    intro T flags e post hcontra
    exact Except.noConfusion hcontra
  | cons rkv rest ih =>
    intro T flags e post herr
    obtain ⟨k, v⟩ := rkv
    rw [List.cons_append]
    rw [mapLoop] at herr ⊢
    cases hTk : Table.get_pos h T k with
    | none =>
      simp only [hTk] at herr ⊢
      exact herr
    | some p =>
      simp only [hTk] at herr ⊢
      by_cases hflag : flags.getD p false = true
      · rw [if_pos hflag] at herr ⊢
        exact herr
      · rw [if_neg hflag] at herr ⊢
        cases hnd : T.nodes.getD p none with
        | none =>
          simp only [hnd] at herr ⊢
          exact herr
        | some nd =>
          simp only [hnd] at herr ⊢
          exact ih _ _ e post herr

/-- Success of the key loop of `HashSet::new` with pairwise-distinct keys. -/
theorem setLoop_ok (h : ByteStr → Nat) (T : Table Unit) :
    ∀ (l : List ByteStr) (flags : List Bool),
      l.Pairwise (· ≠ ·) →
      (∀ k, k ∈ l → (T.get_pos h k).isSome) →
      (∀ k p, k ∈ l → T.get_pos h k = some p → flags.getD p false = false) →
      setLoop h T flags l = .ok () := by
  intro l
  induction l with
  | nil => intro flags _ _ _; rfl
  | cons k rest ih =>
    intro flags hpw hfound hflags
    obtain ⟨p, hp⟩ := Option.isSome_iff_exists.mp (hfound k (List.mem_cons_self _ _))
    have hflag : flags.getD p false = false := hflags k p (List.mem_cons_self _ _) hp
    rw [List.pairwise_cons] at hpw
    have hstep : setLoop h T flags (k :: rest)
        = setLoop h T (flags.set p true) rest := by
      simp only [setLoop, hp, hflag, Bool.false_eq_true, if_false]
    rw [hstep]
    refine ih (flags.set p true) hpw.2 (fun k' hk' => hfound k' (List.mem_cons_of_mem _ hk')) ?_
    intro k' p' hk' hp'
    have hne : p' ≠ p := by
      intro hcontra
      subst hcontra
      exact hpw.1 k' hk' (get_pos_inj h T k' k p' hp' hp).symm
    rw [getD_set_ne flags true false (fun hx => hne hx.symm)]
    exact hflags k' p' (List.mem_cons_of_mem _ hk') hp'

/-- The key loop never reaches the `unwrap` panic when every key is found. -/
theorem setLoop_no_panic (h : ByteStr → Nat) (T : Table Unit) :
    ∀ (l : List ByteStr) (flags : List Bool),
      (∀ k, k ∈ l → (T.get_pos h k).isSome) →
      setLoop h T flags l ≠ .error .unwrapPanic := by
  intro l
  induction l with
  | nil => intro flags _ hcontra; exact Except.noConfusion hcontra
  | cons k rest ih =>
    intro flags hfound hcontra
    obtain ⟨p, hp⟩ := Option.isSome_iff_exists.mp (hfound k (List.mem_cons_self _ _))
    rw [setLoop] at hcontra
    simp only [hp] at hcontra
    by_cases hflag : flags.getD p false = true
    · rw [if_pos hflag] at hcontra
      simp at hcontra
    · rw [if_neg hflag] at hcontra
      exact ih (flags.set p true)
        (fun k' hk' => hfound k' (List.mem_cons_of_mem _ hk')) hcontra

/-- If the key loop succeeds, the processed keys are pairwise distinct. -/
theorem setLoop_ok_pairwise (h : ByteStr → Nat) (T : Table Unit)
    (hmask : T.capacity_mask = T.nodes.length - 1) (h0 : 0 < T.nodes.length) :
    ∀ (l : List ByteStr) (flags : List Bool),
      flags.length = T.nodes.length →
      setLoop h T flags l = .ok () →
      (∀ k, k ∈ l → ∃ p, T.get_pos h k = some p ∧ flags.getD p false = false) ∧
      l.Pairwise (· ≠ ·) := by
  intro l
  induction l with
  | nil =>
    intro flags _ _
    exact ⟨fun k hk => absurd hk (List.not_mem_nil k), List.Pairwise.nil⟩
  | cons k rest ih =>
    intro flags hflen hok
    rw [setLoop] at hok
    cases hTk : Table.get_pos h T k with
    | none =>
      simp only [hTk] at hok
      exact Except.noConfusion hok
    | some p =>
      simp only [hTk] at hok
      have hplt : p < flags.length := by
        rw [hflen]
        exact get_pos_some_lt h T k p hmask h0 hTk
      by_cases hflag : flags.getD p false = true
      · rw [if_pos hflag] at hok
        exact Except.noConfusion hok
      · rw [if_neg hflag] at hok
        obtain ⟨hrest_flags, hrest_pw⟩ := ih (flags.set p true)
          (by rw [List.length_set]; exact hflen) hok
        have hrest_unset : ∀ k', k' ∈ rest →
            ∃ p', T.get_pos h k' = some p' ∧ flags.getD p' false = false ∧ p' ≠ p := by
          intro k' hk'
          obtain ⟨p', hp', hpflag⟩ := hrest_flags k' hk'
          have hne : p' ≠ p := by
            intro hcontra
            subst hcontra
            rw [getD_set_self flags p' true false hplt] at hpflag
            exact Bool.noConfusion hpflag
          rw [getD_set_ne flags true false (fun hx => hne hx.symm)] at hpflag
          exact ⟨p', hp', hpflag, hne⟩
        constructor
        · intro k' hk'
          rcases List.mem_cons.mp hk' with rfl | hk''
          · exact ⟨p, hTk, Bool.not_eq_true _ ▸ hflag⟩
          · obtain ⟨p', hp', hpflag, _⟩ := hrest_unset k' hk''
            exact ⟨p', hp', hpflag⟩
        · rw [List.pairwise_cons]
          refine ⟨?_, hrest_pw⟩
          intro k' hk' hcontra
          obtain ⟨p', hp', _, hne⟩ := hrest_unset k' hk'
          rw [← hcontra] at hp'
          rw [hp'] at hTk
          exact hne (Option.some.inj hTk)

/-- The key loop only reports duplicate keys or the unwrap panic. -/
theorem setLoop_error_cases (h : ByteStr → Nat) (T : Table Unit) :
    ∀ (l : List ByteStr) (flags : List Bool) (e : BuildError),
      setLoop h T flags l = .error e →
      e = BuildError.duplicateKey ∨ e = BuildError.unwrapPanic := by
  intro l
  induction l with
  | nil => intro flags e hcontra; exact Except.noConfusion hcontra
  | cons k rest ih =>
    intro flags e herr
    rw [setLoop] at herr
    cases hTk : Table.get_pos h T k with
    | none =>
      simp only [hTk] at herr
      exact Or.inr (Except.error.inj herr).symm
    | some p =>
      simp only [hTk] at herr
      by_cases hflag : flags.getD p false = true
      · rw [if_pos hflag] at herr
        exact Or.inl (Except.error.inj herr).symm
      · rw [if_neg hflag] at herr
        exact ih (flags.set p true) e herr

/-- An error aborts the key loop: keys after the failing one are ignored. -/
theorem setLoop_error_append (h : ByteStr → Nat) (T : Table Unit) :
    ∀ (l : List ByteStr) (flags : List Bool) (e : BuildError) (post : List ByteStr),
      setLoop h T flags l = .error e →
      setLoop h T flags (l ++ post) = .error e := by
  intro l
  induction l with
  | nil => intro flags e post hcontra; exact Except.noConfusion hcontra
  | cons k rest ih =>
    intro flags e post herr
    rw [List.cons_append]
    rw [setLoop] at herr ⊢
    cases hTk : Table.get_pos h T k with
    | none =>
      simp only [hTk] at herr ⊢
      exact herr
    | some p =>
      simp only [hTk] at herr ⊢
      by_cases hflag : flags.getD p false = true
      · rw [if_pos hflag] at herr ⊢
        exact herr
      · rw [if_neg hflag] at herr ⊢
        exact ih (flags.set p true) e post herr

theorem getD_replicate {α : Type} (c p : Nat) (x : α) :
    (List.replicate c x).getD p x = x := by
  simp only [List.getD_eq_getElem?_getD, List.getElem?_replicate]
  by_cases hp : p < c <;> simp [hp]

theorem mem_getD {α : Type} (l : List α) (k d : α) (hk : k ∈ l) :
    ∃ j, j < l.length ∧ l.getD j d = k := by
  obtain ⟨i, hi, rfl⟩ := List.mem_iff_getElem.mp hk
  refine ⟨i, hi, ?_⟩
  rw [List.getD_eq_getElem?_getD, List.getElem?_eq_getElem hi]
  rfl

/-- Every member key of the input is found by `get_pos` on the built table
    (duplicates included), at an occupied position storing exactly it. -/
theorem build_found_mem {V : Type} [Inhabited V] (h : ByteStr → Nat)
    (keys : List ByteStr) (T : Table V) (hT : T = Table.build V h keys)
    (k : ByteStr) (hk : k ∈ keys) :
    ∃ p, T.get_pos h k = some p ∧
      ∃ nd, T.nodes.getD p none = some nd ∧ T.get_bytes nd = k := by
  obtain ⟨j, hj, hkj⟩ := mem_getD keys k [] hk
  obtain ⟨p, hp, nd, hnd, hbytes⟩ := build_found h keys T hT j hj
  exact ⟨p, hkj ▸ hp, nd, hnd, hkj ▸ hbytes⟩

theorem hashMap_new_eq {V : Type} [Inhabited V] (h : ByteStr → Nat)
    (records : List (ByteStr × V)) (hne : records ≠ []) :
    HashMap.new h records
      = (mapLoop h (Table.build V h (records.map Prod.fst))
          (List.replicate (Table.build V h (records.map Prod.fst)).nodes.length false)
          records).map HashMap.mk := by
  rw [HashMap.new, if_neg (by simpa [List.isEmpty_iff] using hne)]

theorem hashSet_new_eq (h : ByteStr → Nat) (keys : List ByteStr) (hne : keys ≠ []) :
    HashSet.new h keys
      = (setLoop h (Table.build Unit h keys)
          (List.replicate (Table.build Unit h keys).nodes.length false)
          keys).map fun _ => ⟨Table.build Unit h keys⟩ := by
  rw [HashSet.new, if_neg (by simpa [List.isEmpty_iff] using hne)]

/-- Success of `HashMap::new` on pairwise-distinct keys, with a description
    of the resulting map. -/
theorem hashMap_new_ok {V : Type} [Inhabited V] (h : ByteStr → Nat)
    (records : List (ByteStr × V)) (hne : records ≠ [])
    (hpw : (records.map Prod.fst).Pairwise (· ≠ ·)) :
    ∃ m, HashMap.new h records = .ok m ∧
      ShapeEq (Table.build V h (records.map Prod.fst)) m.table ∧
      (∀ r p, r ∈ records →
        (Table.build V h (records.map Prod.fst)).get_pos h r.1 = some p →
        ∃ nd, m.table.nodes.getD p none = some nd ∧ nd.val = r.2) := by
  have hmask := build_mask h (records.map Prod.fst)
    (Table.build V h (records.map Prod.fst)) rfl
  have h00 : 0 < (Table.build V h (records.map Prod.fst)).nodes.length := by
    rw [build_nodes_length h (records.map Prod.fst) _ rfl]
    exact capacityOf_pos _
  obtain ⟨T', hloop, hshape, hvals, _⟩ := mapLoop_ok h
    (Table.build V h (records.map Prod.fst)) hmask h00 records
    (Table.build V h (records.map Prod.fst))
    (List.replicate (Table.build V h (records.map Prod.fst)).nodes.length false)
    (shapeEq_refl _) hpw
    (fun r hr => by
      obtain ⟨p, hp, _⟩ := build_found_mem h (records.map Prod.fst)
        (Table.build V h (records.map Prod.fst)) rfl r.1
        (List.mem_map.mpr ⟨r, hr, rfl⟩)
      rw [hp]
      rfl)
    (fun r p _ _ => getD_replicate _ p false)
  refine ⟨⟨T'⟩, ?_, hshape, fun r p hr hp => hvals r p hr hp⟩
  rw [hashMap_new_eq h records hne, hloop]
  rfl

/-- Inversion of a successful `HashMap::new`: the input was nonempty with
    pairwise-distinct keys, and the resulting table is the built table with
    each record's value written at its key's position. -/
theorem hashMap_new_ok_inv {V : Type} [Inhabited V] (h : ByteStr → Nat)
    (records : List (ByteStr × V)) (m : HashMap V)
    (hok : HashMap.new h records = .ok m) :
    records ≠ [] ∧ (records.map Prod.fst).Pairwise (· ≠ ·) ∧
      ShapeEq (Table.build V h (records.map Prod.fst)) m.table ∧
      (∀ r p, r ∈ records →
        (Table.build V h (records.map Prod.fst)).get_pos h r.1 = some p →
        ∃ nd, m.table.nodes.getD p none = some nd ∧ nd.val = r.2) := by
  have hne : records ≠ [] := by
    intro hcontra
    subst hcontra
    rw [HashMap.new] at hok
    exact Except.noConfusion hok
  have hmask := build_mask h (records.map Prod.fst)
    (Table.build V h (records.map Prod.fst)) rfl
  have h00 : 0 < (Table.build V h (records.map Prod.fst)).nodes.length := by
    rw [build_nodes_length h (records.map Prod.fst) _ rfl]
    exact capacityOf_pos _
  rw [hashMap_new_eq h records hne] at hok
  cases hml : mapLoop h (Table.build V h (records.map Prod.fst))
      (List.replicate (Table.build V h (records.map Prod.fst)).nodes.length false)
      records with
  | error e =>
    rw [hml] at hok
    exact Except.noConfusion hok
  | ok T' =>
    rw [hml] at hok
    have hm : m = ⟨T'⟩ := (Except.ok.inj hok).symm
    subst hm
    have hpw := (mapLoop_ok_pairwise h (Table.build V h (records.map Prod.fst))
      hmask h00 records _ _ T' (shapeEq_refl _) (by rw [List.length_replicate]) hml).2
    obtain ⟨T'', hloop2, hshape, hvals, _⟩ := mapLoop_ok h
      (Table.build V h (records.map Prod.fst)) hmask h00 records
      (Table.build V h (records.map Prod.fst))
      (List.replicate (Table.build V h (records.map Prod.fst)).nodes.length false)
      (shapeEq_refl _) hpw
      (fun r hr => by
        obtain ⟨p, hp, _⟩ := build_found_mem h (records.map Prod.fst)
          (Table.build V h (records.map Prod.fst)) rfl r.1
          (List.mem_map.mpr ⟨r, hr, rfl⟩)
        rw [hp]
        rfl)
      (fun r p _ _ => getD_replicate _ p false)
    rw [hml] at hloop2
    obtain rfl : T' = T'' := Except.ok.inj hloop2
    exact ⟨hne, hpw, hshape, hvals⟩

/-- Constructing a `HashMap` from records with a duplicate key fails with
    the duplicate-key error. -/
theorem hashMap_new_dup {V : Type} [Inhabited V] (h : ByteStr → Nat)
    (records : List (ByteStr × V))
    (hdup : ¬ (records.map Prod.fst).Pairwise (· ≠ ·)) :
    HashMap.new h records = .error .duplicateKey := by
  have hne : records ≠ [] := by
    intro hcontra
    subst hcontra
    exact hdup List.Pairwise.nil
  have hmask := build_mask h (records.map Prod.fst)
    (Table.build V h (records.map Prod.fst)) rfl
  have h00 : 0 < (Table.build V h (records.map Prod.fst)).nodes.length := by
    rw [build_nodes_length h (records.map Prod.fst) _ rfl]
    exact capacityOf_pos _
  have hfound : ∀ r, r ∈ records →
      ((Table.build V h (records.map Prod.fst)).get_pos h r.1).isSome := by
    intro r hr
    obtain ⟨p, hp, _⟩ := build_found_mem h (records.map Prod.fst)
      (Table.build V h (records.map Prod.fst)) rfl r.1
      (List.mem_map.mpr ⟨r, hr, rfl⟩)
    rw [hp]
    rfl
  rw [hashMap_new_eq h records hne]
  cases hml : mapLoop h (Table.build V h (records.map Prod.fst))
      (List.replicate (Table.build V h (records.map Prod.fst)).nodes.length false)
      records with
  | ok T' =>
    exact absurd ((mapLoop_ok_pairwise h _ hmask h00 records _ _ T'
      (shapeEq_refl _) (by rw [List.length_replicate]) hml).2) hdup
  | error e =>
    rcases mapLoop_error_cases h records _ _ e hml with rfl | rfl
    · rfl
    · exact absurd hml (mapLoop_no_panic h _ records _ _ (shapeEq_refl _) hfound)

/-- Success of `HashSet::new` on pairwise-distinct keys: the set holds the
    built table itself. -/
theorem hashSet_new_ok (h : ByteStr → Nat) (keys : List ByteStr) (hne : keys ≠ [])
    (hpw : keys.Pairwise (· ≠ ·)) :
    HashSet.new h keys = .ok ⟨Table.build Unit h keys⟩ := by
  rw [hashSet_new_eq h keys hne]
  rw [setLoop_ok h (Table.build Unit h keys) keys _ hpw
    (fun k hk => by
      obtain ⟨p, hp, _⟩ := build_found_mem h keys (Table.build Unit h keys) rfl k hk
      rw [hp]
      rfl)
    (fun k p _ _ => getD_replicate _ p false)]
  rfl

/-- Inversion of a successful `HashSet::new`. -/
theorem hashSet_new_ok_inv (h : ByteStr → Nat) (keys : List ByteStr) (s : HashSet)
    (hok : HashSet.new h keys = .ok s) :
    keys ≠ [] ∧ keys.Pairwise (· ≠ ·) ∧ s = ⟨Table.build Unit h keys⟩ := by
  have hne : keys ≠ [] := by
    intro hcontra
    subst hcontra
    rw [HashSet.new] at hok
    exact Except.noConfusion hok
  have hmask := build_mask h keys (Table.build Unit h keys) rfl
  have h00 : 0 < (Table.build Unit h keys).nodes.length := by
    rw [build_nodes_length h keys _ rfl]
    exact capacityOf_pos _
  rw [hashSet_new_eq h keys hne] at hok
  cases hsl : setLoop h (Table.build Unit h keys)
      (List.replicate (Table.build Unit h keys).nodes.length false) keys with
  | error e =>
    rw [hsl] at hok
    exact Except.noConfusion hok
  | ok u =>
    rw [hsl] at hok
    cases u
    have hpw := (setLoop_ok_pairwise h (Table.build Unit h keys) hmask h00 keys _
      (by rw [List.length_replicate]) hsl).2
    exact ⟨hne, hpw, (Except.ok.inj hok).symm⟩

/-- Constructing a `HashSet` from keys with a duplicate fails with the
    duplicate-key error. -/
theorem hashSet_new_dup (h : ByteStr → Nat) (keys : List ByteStr)
    (hdup : ¬ keys.Pairwise (· ≠ ·)) :
    HashSet.new h keys = .error .duplicateKey := by
  have hne : keys ≠ [] := by
    intro hcontra
    subst hcontra
    exact hdup List.Pairwise.nil
  have hmask := build_mask h keys (Table.build Unit h keys) rfl
  have h00 : 0 < (Table.build Unit h keys).nodes.length := by
    rw [build_nodes_length h keys _ rfl]
    exact capacityOf_pos _
  have hfound : ∀ k, k ∈ keys → ((Table.build Unit h keys).get_pos h k).isSome := by
    intro k hk
    obtain ⟨p, hp, _⟩ := build_found_mem h keys (Table.build Unit h keys) rfl k hk
    rw [hp]
    rfl
  rw [hashSet_new_eq h keys hne]
  cases hsl : setLoop h (Table.build Unit h keys)
      (List.replicate (Table.build Unit h keys).nodes.length false) keys with
  | ok u =>
    cases u
    exact absurd ((setLoop_ok_pairwise h _ hmask h00 keys _
      (by rw [List.length_replicate]) hsl).2) hdup
  | error e =>
    rcases setLoop_error_cases h _ keys _ e hsl with rfl | rfl
    · rfl
    · exact absurd hsl (setLoop_no_panic h _ keys _ hfound)

/-- Writing a value through `get_mut` for a present key: the new value is
    observed by `get` on that key, every other key's `get` is unchanged, and
    `len` and `contains_key` are unchanged. -/
theorem writeViaGetMut_spec {V : Type} (h : ByteStr → Nat) (m : HashMap V)
    (k : ByteStr) (v' : V) (p : Nat) (hp : m.table.get_pos h k = some p) :
    HashMap.get h (HashMap.writeViaGetMut h m k v') k = some v' ∧
    (∀ k', k' ≠ k →
      HashMap.get h (HashMap.writeViaGetMut h m k v') k' = HashMap.get h m k') ∧
    (HashMap.writeViaGetMut h m k v').len = m.len ∧
    (∀ q, HashMap.contains_key h (HashMap.writeViaGetMut h m k v') q
      = HashMap.contains_key h m q) := by
  obtain ⟨nd, hnd, _⟩ := get_pos_some_spec h m.table k p hp
  have hplt : p < m.table.nodes.length := getD_some_lt _ _ _ hnd
  have hwrite : HashMap.writeViaGetMut h m k v'
      = ⟨{ m.table with nodes := m.table.nodes.set p (some { nd with val := v' }) }⟩ := by
    simp only [HashMap.writeViaGetMut, hp, Table.setValAt, hnd]
  have hshape : ShapeEq m.table
      { m.table with nodes := m.table.nodes.set p (some { nd with val := v' }) } :=
    shapeEq_write m.table p nd v' hnd
  rw [hwrite]
  refine ⟨?_, ?_, ?_, ?_⟩
  · rw [HashMap.get, Table.get, get_pos_shapeEq hshape h k, hp]
    show ((m.table.nodes.set p (some { nd with val := v' })).getD p none).map
      MapNode.val = some v'
    rw [getD_set_self m.table.nodes p _ none hplt]
    rfl
  · intro k' hk'
    rw [HashMap.get, HashMap.get, Table.get, Table.get, get_pos_shapeEq hshape h k']
    cases hp' : m.table.get_pos h k' with
    | none => rfl
    | some p' =>
      have hne : p ≠ p' := by
        intro hcontra
        subst hcontra
        exact hk' (get_pos_inj h m.table k' k p hp' hp)
      show ((m.table.nodes.set p (some { nd with val := v' })).getD p' none).map
          MapNode.val = (m.table.nodes.getD p' none).map MapNode.val
      rw [getD_set_ne m.table.nodes _ none hne]
  · rfl
  · intro q
    rw [HashMap.contains_key, HashMap.contains_key]
    exact get_isSome_shapeEq hshape h q

/-- The load-factor inequality in rational form is the integer inequality
    `5 * n ≤ 4 * c`. -/
theorem load_iff (n c : Nat) (hc : 0 < c) :
    (n : ℚ) / (c : ℚ) ≤ 0.8 ↔ 5 * n ≤ 4 * c := by
  rw [div_le_iff₀ (by exact_mod_cast hc)]
  constructor
  · intro hle
    have h5 : (5 * n : ℚ) ≤ (4 * c : ℚ) := by linarith
    exact_mod_cast h5
  · intro hle
    have h5 : ((5 * n : Nat) : ℚ) ≤ ((4 * c : Nat) : ℚ) := by exact_mod_cast hle
    push_cast at h5
    linarith

theorem not_pairwise_of_dup {α : Type} (l : List α) (d : α) (i j : Nat)
    (hij : i < j) (hj : j < l.length) (heq : l.getD i d = l.getD j d) :
    ¬ l.Pairwise (· ≠ ·) := by
  intro hpw
  have hi : i < l.length := by omega
  rw [List.pairwise_iff_getElem] at hpw
  have hne := hpw i j hi hj hij
  rw [List.getD_eq_getElem?_getD, List.getElem?_eq_getElem hi] at heq
  rw [List.getD_eq_getElem?_getD, List.getElem?_eq_getElem hj] at heq
  exact hne (by simpa using heq)

/-- The probe sequence is the home position advanced mod the capacity. -/
theorem probeSeq_mod {V : Type} (T : Table V) (h : ByteStr → Nat) (k : ByteStr)
    (b : Nat) (hc : T.nodes.length = 2 ^ b)
    (hm : T.capacity_mask = T.nodes.length - 1) :
    ∀ t, probeSeq T h k t = ((h k &&& T.capacity_mask) + t) % T.nodes.length := by
  have h0 : 0 < T.nodes.length := by
    rw [hc]
    exact Nat.two_pow_pos b
  have hlt : h k &&& T.capacity_mask < T.nodes.length := by
    calc h k &&& T.capacity_mask ≤ T.capacity_mask := Nat.and_le_right
      _ < T.nodes.length := by omega
  intro t
  induction t with
  | zero =>
    rw [probeSeq, Nat.add_zero, Nat.mod_eq_of_lt hlt]
  | succ t ih =>
    rw [probeSeq, ih, mask_eq_mod T b hc hm, Nat.mod_add_mod, Nat.add_assoc]

/-- A payload write never changes bytes, mask, count, or slot shape. -/
theorem setValAt_shape {V : Type} (T : Table V) (pos : Nat) (v : V) :
    ShapeEq T (T.setValAt pos v) := by
  cases hx : T.nodes.getD pos none with
  | none =>
    simp only [Table.setValAt, hx]
    exact shapeEq_refl T
  | some nd =>
    simp only [Table.setValAt, hx]
    exact shapeEq_write T pos nd v hx

/- The claims. -/

/-- C1: for every non-empty list of records whose keys are pairwise-distinct
    byte strings (the empty byte string allowed), `HashMap::new` succeeds and
    afterwards `get(k)` returns `Some` of the value originally paired with
    `k` for every input key and `None` for every byte string not among the
    input keys; under the same precondition `HashSet::new` succeeds and
    `contains` is true exactly on the input keys. -/
theorem claim_C1_roundtrip {V : Type} [Inhabited V] (h : ByteStr → Nat)
    (records : List (ByteStr × V)) (keys : List ByteStr)
    (hrne : records ≠ []) (hrpw : (records.map Prod.fst).Pairwise (· ≠ ·))
    (hkne : keys ≠ []) (hkpw : keys.Pairwise (· ≠ ·)) :
    (∃ m, HashMap.new h records = .ok m ∧
      (∀ r, r ∈ records → HashMap.get h m r.1 = some r.2) ∧
      (∀ q, q ∉ records.map Prod.fst → HashMap.get h m q = none)) ∧
    (∃ s, HashSet.new h keys = .ok s ∧
      ∀ q, HashSet.contains h s q = true ↔ q ∈ keys) := by
  constructor
  · obtain ⟨m, hnew, hshape, hvals⟩ := hashMap_new_ok h records hrne hrpw
    refine ⟨m, hnew, ?_, ?_⟩
    · intro r hr
      obtain ⟨p, hp, _⟩ := build_found_mem h (records.map Prod.fst)
        (Table.build V h (records.map Prod.fst)) rfl r.1
        (List.mem_map.mpr ⟨r, hr, rfl⟩)
      obtain ⟨nd, hnd, hval⟩ := hvals r p hr hp
      rw [HashMap.get, Table.get, get_pos_shapeEq hshape h r.1, hp]
      show ((m.table.nodes.getD p none).map MapNode.val) = some r.2
      rw [hnd]
      show some nd.val = some r.2
      rw [hval]
    · intro q hq
      rw [HashMap.get, Table.get, get_pos_shapeEq hshape h q,
        build_not_mem h (records.map Prod.fst)
          (Table.build V h (records.map Prod.fst)) rfl q hq]
      rfl
  · refine ⟨⟨Table.build Unit h keys⟩, hashSet_new_ok h keys hkne hkpw, ?_⟩
    intro q
    constructor
    · intro hq
      by_contra hnq
      rw [HashSet.contains, Table.get,
        build_not_mem h keys (Table.build Unit h keys) rfl q hnq] at hq
      exact Bool.noConfusion hq
    · intro hq
      obtain ⟨p, hp, nd, hnd, _⟩ := build_found_mem h keys
        (Table.build Unit h keys) rfl q hq
      rw [HashSet.contains, Table.get, hp]
      show ((Table.build Unit h keys).nodes.getD p none).isSome = true
      rw [hnd]
      rfl

/-- C2: an input list containing two records (at any positions `i < j`,
    adjacent or not) with byte-equal keys makes `HashMap::new` (and
    `HashSet::new` for keys) return the duplicate-key error, and an error
    aborts the loop, so records after the failing one are not processed. -/
theorem claim_C2_duplicate {V : Type} [Inhabited V] (h : ByteStr → Nat)
    (records : List (ByteStr × V)) (keys : List ByteStr) (i j i2 j2 : Nat)
    (hij : i < j) (hj : j < records.length)
    (heq : (records.map Prod.fst).getD i [] = (records.map Prod.fst).getD j [])
    (hij2 : i2 < j2) (hj2 : j2 < keys.length)
    (heq2 : keys.getD i2 [] = keys.getD j2 []) :
    HashMap.new h records = .error .duplicateKey ∧
    HashSet.new h keys = .error .duplicateKey ∧
    (∀ (T : Table V) (flags : List Bool) (l post : List (ByteStr × V)) (e : BuildError),
      mapLoop h T flags l = .error e → mapLoop h T flags (l ++ post) = .error e) ∧
    (∀ (T : Table Unit) (flags : List Bool) (l post : List ByteStr) (e : BuildError),
      setLoop h T flags l = .error e → setLoop h T flags (l ++ post) = .error e) := by
  refine ⟨?_, ?_,
    fun T flags l post e he => mapLoop_error_append h l T flags e post he,
    fun T flags l post e he => setLoop_error_append h T l flags e post he⟩
  · exact hashMap_new_dup h records (not_pairwise_of_dup _ [] i j hij
      (by rw [List.length_map]; exact hj) heq)
  · exact hashSet_new_dup h keys (not_pairwise_of_dup _ [] i2 j2 hij2 hj2 heq2)

/-- C3: for `n ≥ 1` keys the capacity chosen by `Table::build` is the
    smallest power of two `c` with `n / c ≤ 0.8`; in particular 5 keys give
    capacity 8 and 7 keys give capacity 16, and `capacity_mask` is
    `capacity - 1`. -/
theorem claim_C3_capacity {V : Type} [Inhabited V] (h : ByteStr → Nat)
    (keys : List ByteStr) (n : Nat) (hn : keys.length = n) (_h1 : 1 ≤ n)
    (T : Table V) (hT : T = Table.build V h keys) :
    (∃ b, T.nodes.length = 2 ^ b) ∧
    ((n : ℚ) / (T.nodes.length : ℚ) ≤ 0.8) ∧
    (∀ b : Nat, (n : ℚ) / ((2 ^ b : Nat) : ℚ) ≤ 0.8 → T.nodes.length ≤ 2 ^ b) ∧
    T.capacity_mask = T.nodes.length - 1 ∧
    (n = 5 → T.nodes.length = 8) ∧
    (n = 7 → T.nodes.length = 16) := by
  have hlen := build_nodes_length h keys T hT
  rw [hn] at hlen
  have hpos : 0 < T.nodes.length := by
    rw [hlen]
    exact capacityOf_pos n
  refine ⟨⟨bitLen (5 * n / 4), by rw [hlen]; rfl⟩, ?_, ?_,
    build_mask h keys T hT, ?_, ?_⟩
  · rw [load_iff n T.nodes.length hpos, hlen]
    exact capacityOf_load n
  · intro b hb
    rw [load_iff n (2 ^ b) (Nat.two_pow_pos b)] at hb
    rw [hlen]
    exact capacityOf_min n b hb
  · intro h5
    rw [hlen, h5]
    decide
  · intro h7
    rw [hlen, h7]
    decide

/-- C4: on every built table, lookup starts at `hash(key) & capacity_mask`
    and advances by `(pos + 1) & capacity_mask`; it returns `None` upon
    reaching an empty slot and otherwise returns the first position of the
    probe sequence whose stored byte range equals the query key exactly. -/
theorem claim_C4_lookup {V : Type} [Inhabited V] (h : ByteStr → Nat)
    (keys : List ByteStr) (k : ByteStr) (T : Table V)
    (hT : T = Table.build V h keys) :
    probeSeq T h k 0 = (h k &&& T.capacity_mask) ∧
    (∀ t, probeSeq T h k (t + 1) = (probeSeq T h k t + 1) &&& T.capacity_mask) ∧
    ∃ d, d < T.nodes.length ∧
      (∀ t, t < d → ∃ nd, T.nodes.getD (probeSeq T h k t) none = some nd ∧
        T.get_bytes nd ≠ k) ∧
      ((T.nodes.getD (probeSeq T h k d) none = none ∧ T.get_pos h k = none) ∨
        (∃ nd, T.nodes.getD (probeSeq T h k d) none = some nd ∧
          T.get_bytes nd = k ∧ T.get_pos h k = some (probeSeq T h k d))) := by
  obtain ⟨b, hb⟩ := build_pow h keys T hT
  have hm := build_mask h keys T hT
  have hseq := probeSeq_mod T h k b hb hm
  refine ⟨rfl, fun t => rfl, ?_⟩
  obtain ⟨d, hdlt, hpre, hres⟩ := build_probe_char h keys T hT k
  refine ⟨d, hdlt, ?_, ?_⟩
  · intro t ht
    rw [hseq t]
    exact hpre t ht
  · rw [hseq d]
    exact hres

/-- C5: for every table built from `n ≥ 1` keys (duplicates included) the
    probe loop of lookup terminates: the capacity strictly exceeds `n`, at
    least one slot stays empty, and the loop reaches a matching or empty
    slot within at most capacity steps (fuel `capacity` suffices). -/
theorem claim_C5_termination {V : Type} [Inhabited V] (h : ByteStr → Nat)
    (keys : List ByteStr) (_hne : keys ≠ []) (T : Table V)
    (hT : T = Table.build V h keys) :
    keys.length < T.nodes.length ∧
    (∃ p, p < T.nodes.length ∧ T.nodes.getD p none = none) ∧
    (∀ k, ∃ r, probeLoop T k T.nodes.length (h k &&& T.capacity_mask) = some r) := by
  refine ⟨?_, build_empty_slot h keys T hT, ?_⟩
  · rw [build_nodes_length h keys T hT]
    exact lt_capacityOf _
  · intro k
    obtain ⟨b, hb⟩ := build_pow h keys T hT
    have hm := build_mask h keys T hT
    have hhome := build_home_lt h keys T hT (h k)
    obtain ⟨p0, hp0lt, hp0⟩ := build_empty_slot h keys T hT
    obtain ⟨e, helt, heeq⟩ := offset_exists hhome hp0lt
    obtain ⟨d, _, _, hres⟩ := probeLoop_stop T k b hb hm e T.nodes.length
      (h k &&& T.capacity_mask) hhome helt (Or.inl (by rw [heeq]; exact hp0))
    rcases hres with ⟨_, hloop⟩ | ⟨_, _, _, hloop⟩
    · exact ⟨none, hloop⟩
    · exact ⟨_, hloop⟩

/-- C6: constructing a `HashMap` from an empty record list, or a `HashSet`
    from an empty key list, fails with the empty-input error. -/
theorem claim_C6_empty {V : Type} [Inhabited V] (h : ByteStr → Nat) :
    HashMap.new (V := V) h [] = .error .emptyInput ∧
    HashSet.new h [] = .error .emptyInput :=
  ⟨rfl, rfl⟩

/-- C7: on a successfully constructed map, writing a new value through
    `get_mut(k)` for an input key `k` is observed by a subsequent `get(k)`,
    leaves `get` unchanged on every other input key, and leaves `len` and
    `contains_key` (on every byte string) unchanged. -/
theorem claim_C7_mutation {V : Type} [Inhabited V] (h : ByteStr → Nat)
    (records : List (ByteStr × V)) (m : HashMap V)
    (hok : HashMap.new h records = .ok m) (k : ByteStr) (v : V)
    (hkv : (k, v) ∈ records) (v2 : V) :
    HashMap.get h (HashMap.writeViaGetMut h m k v2) k = some v2 ∧
    (∀ k2 v3, (k2, v3) ∈ records → k2 ≠ k →
      HashMap.get h (HashMap.writeViaGetMut h m k v2) k2 = HashMap.get h m k2) ∧
    (HashMap.writeViaGetMut h m k v2).len = m.len ∧
    (∀ q, HashMap.contains_key h (HashMap.writeViaGetMut h m k v2) q
      = HashMap.contains_key h m q) := by
  obtain ⟨hne, hpw, hshape, hvals⟩ := hashMap_new_ok_inv h records m hok
  obtain ⟨p, hp, _⟩ := build_found_mem h (records.map Prod.fst)
    (Table.build V h (records.map Prod.fst)) rfl k
    (List.mem_map.mpr ⟨(k, v), hkv, rfl⟩)
  have hpm : m.table.get_pos h k = some p := by
    rw [get_pos_shapeEq hshape h k]
    exact hp
  obtain ⟨hget, hother, hlen, hcont⟩ := writeViaGetMut_spec h m k v2 p hpm
  exact ⟨hget, fun k2 v3 _ hk2 => hother k2 hk2, hlen, hcont⟩

/-- C8: after `Table::build` every occupied slot's node byte range is in
    bounds and reproduces exactly the key assigned to that slot; ranges of
    distinct occupied slots do not overlap; and payload-value mutation
    changes neither the bytes nor any node's `ptr`/`len` (lookups are pure
    functions of the table). -/
theorem claim_C8_invariant {V : Type} [Inhabited V] (h : ByteStr → Nat)
    (keys : List ByteStr) (T : Table V) (hT : T = Table.build V h keys) :
    (∀ p j, (buildMapping h keys).getD p none = some j →
      ∃ nd, T.nodes.getD p none = some nd ∧ nd.ptr + nd.len ≤ T.bytes.length ∧
        T.get_bytes nd = keys.getD j []) ∧
    (∀ p q ndp ndq, p < q → T.nodes.getD p none = some ndp →
      T.nodes.getD q none = some ndq → ndp.ptr + ndp.len ≤ ndq.ptr) ∧
    (∀ pos v, (T.setValAt pos v).bytes = T.bytes ∧
      ∀ q, ((T.setValAt pos v).nodes.getD q none).map (fun nd => (nd.ptr, nd.len))
        = (T.nodes.getD q none).map (fun nd => (nd.ptr, nd.len))) := by
  refine ⟨?_,
    fun p q ndp ndq hpq hp hq => build_overlap h keys T hT p q ndp ndq hpq hp hq, ?_⟩
  · intro p j hpj
    obtain ⟨nd, hnd, _, hbound, hbytes⟩ := build_occ_some h keys T hT p j hpj
    exact ⟨nd, hnd, hbound, hbytes⟩
  · intro pos v
    have hs := setValAt_shape T pos v
    exact ⟨hs.1, hs.2.2.2.2⟩

/-- C9: a successfully constructed map or set has `len()` equal to the
    number of input records/keys, and `is_empty()` is false on every
    reachable map or set. -/
theorem claim_C9_len {V : Type} [Inhabited V] (h : ByteStr → Nat)
    (records : List (ByteStr × V)) (m : HashMap V)
    (hok : HashMap.new h records = .ok m)
    (keys : List ByteStr) (s : HashSet) (hoks : HashSet.new h keys = .ok s) :
    m.len = records.length ∧ m.is_empty = false ∧
    s.len = keys.length ∧ s.is_empty = false := by
  obtain ⟨hne, _, hshape, _⟩ := hashMap_new_ok_inv h records m hok
  obtain ⟨hkne, _, hs⟩ := hashSet_new_ok_inv h keys s hoks
  have hml : m.len = records.length := by
    rw [HashMap.len, hshape.2.2.2.1,
      build_num_keys h (records.map Prod.fst)
        (Table.build V h (records.map Prod.fst)) rfl,
      List.length_map]
  have hsl : s.len = keys.length := by
    rw [hs, HashSet.len, build_num_keys h keys (Table.build Unit h keys) rfl]
  refine ⟨hml, ?_, hsl, ?_⟩
  · rw [HashMap.is_empty, hml]
    cases records with
    | nil => exact absurd rfl hne
    | cons r rest => rfl
  · rw [HashSet.is_empty, hsl]
    cases keys with
    | nil => exact absurd rfl hkne
    | cons k rest => rfl

/-- C10: the duplicate-detection pass of the constructors can never hit the
    `.unwrap()` panics: for every input list (duplicates included) every
    key's `get_pos` on the freshly built table returns a position whose slot
    is occupied, so neither constructor can return the unwrap-panic
    outcome. -/
theorem claim_C10_no_panic {V : Type} [Inhabited V] (h : ByteStr → Nat)
    (records : List (ByteStr × V)) (keys : List ByteStr) :
    HashMap.new h records ≠ .error .unwrapPanic ∧
    HashSet.new h keys ≠ .error .unwrapPanic ∧
    (∀ k, k ∈ records.map Prod.fst →
      ∃ p nd, (Table.build V h (records.map Prod.fst)).get_pos h k = some p ∧
        (Table.build V h (records.map Prod.fst)).nodes.getD p none = some nd) := by
  refine ⟨?_, ?_, ?_⟩
  · intro hcontra
    by_cases hne : records = []
    · subst hne
      have hval : HashMap.new (V := V) h [] = .error .emptyInput := rfl
      rw [hval] at hcontra
      simp at hcontra
    · rw [hashMap_new_eq h records hne] at hcontra
      cases hml : mapLoop h (Table.build V h (records.map Prod.fst))
          (List.replicate (Table.build V h (records.map Prod.fst)).nodes.length false)
          records with
      | ok T2 =>
        rw [hml] at hcontra
        exact Except.noConfusion hcontra
      | error e =>
        rw [hml] at hcontra
        obtain rfl : e = BuildError.unwrapPanic := Except.error.inj hcontra
        refine mapLoop_no_panic h (Table.build V h (records.map Prod.fst))
          records _ _ (shapeEq_refl _) ?_ hml
        intro r hr
        obtain ⟨p, hp, _⟩ := build_found_mem h (records.map Prod.fst)
          (Table.build V h (records.map Prod.fst)) rfl r.1
          (List.mem_map.mpr ⟨r, hr, rfl⟩)
        rw [hp]
        rfl
  · intro hcontra
    by_cases hne : keys = []
    · subst hne
      have hval : HashSet.new h [] = .error .emptyInput := rfl
      rw [hval] at hcontra
      simp at hcontra
    · rw [hashSet_new_eq h keys hne] at hcontra
      cases hsl : setLoop h (Table.build Unit h keys)
          (List.replicate (Table.build Unit h keys).nodes.length false) keys with
      | ok u =>
        rw [hsl] at hcontra
        exact Except.noConfusion hcontra
      | error e =>
        rw [hsl] at hcontra
        obtain rfl : e = BuildError.unwrapPanic := Except.error.inj hcontra
        refine setLoop_no_panic h (Table.build Unit h keys) keys _ ?_ hsl
        intro k hk
        obtain ⟨p, hp, _⟩ := build_found_mem h keys (Table.build Unit h keys) rfl k hk
        rw [hp]
        rfl
  · intro k hk
    obtain ⟨p, hp, nd, hnd, _⟩ := build_found_mem h (records.map Prod.fst)
      (Table.build V h (records.map Prod.fst)) rfl k hk
    exact ⟨p, nd, hp, hnd⟩

/- Witnesses: each applies its claim theorem at a concrete input, with the
   hypotheses discharged there. -/

theorem claim_C1_roundtrip_witness :
    (wRecords ≠ [] ∧ (wRecords.map Prod.fst).Pairwise (· ≠ ·) ∧
      wKeys ≠ [] ∧ wKeys.Pairwise (· ≠ ·)) ∧
    ((∃ m, HashMap.new wHash wRecords = .ok m ∧
      (∀ r, r ∈ wRecords → HashMap.get wHash m r.1 = some r.2) ∧
      (∀ q, q ∉ wRecords.map Prod.fst → HashMap.get wHash m q = none)) ∧
    (∃ s, HashSet.new wHash wKeys = .ok s ∧
      ∀ q, HashSet.contains wHash s q = true ↔ q ∈ wKeys)) :=
  ⟨⟨by decide, by decide, by decide, by decide⟩,
    claim_C1_roundtrip wHash wRecords wKeys (by decide) (by decide)
      (by decide) (by decide)⟩

theorem claim_C2_duplicate_witness :
    (0 < 2 ∧ 2 < wDupRecords.length ∧
      (wDupRecords.map Prod.fst).getD 0 [] = (wDupRecords.map Prod.fst).getD 2 [] ∧
      2 < wDupKeys.length ∧ wDupKeys.getD 0 [] = wDupKeys.getD 2 []) ∧
    (HashMap.new wHash wDupRecords = .error .duplicateKey ∧
    HashSet.new wHash wDupKeys = .error .duplicateKey ∧
    (∀ (T : Table Nat) (flags : List Bool) (l post : List (ByteStr × Nat))
        (e : BuildError),
      mapLoop wHash T flags l = .error e →
        mapLoop wHash T flags (l ++ post) = .error e) ∧
    (∀ (T : Table Unit) (flags : List Bool) (l post : List ByteStr)
        (e : BuildError),
      setLoop wHash T flags l = .error e →
        setLoop wHash T flags (l ++ post) = .error e)) :=
  ⟨⟨by decide, by decide, by decide, by decide, by decide⟩,
    claim_C2_duplicate wHash wDupRecords wDupKeys 0 2 0 2 (by decide) (by decide)
      (by decide) (by decide) (by decide) (by decide)⟩

theorem claim_C3_capacity_witness :
    (wKeys5.length = 5 ∧ 1 ≤ 5 ∧
      Table.build Nat wHash wKeys5 = Table.build Nat wHash wKeys5) ∧
    ((∃ b, (Table.build Nat wHash wKeys5).nodes.length = 2 ^ b) ∧
    ((5 : ℚ) / ((Table.build Nat wHash wKeys5).nodes.length : ℚ) ≤ 0.8) ∧
    (∀ b : Nat, (5 : ℚ) / ((2 ^ b : Nat) : ℚ) ≤ 0.8 →
      (Table.build Nat wHash wKeys5).nodes.length ≤ 2 ^ b) ∧
    (Table.build Nat wHash wKeys5).capacity_mask
      = (Table.build Nat wHash wKeys5).nodes.length - 1 ∧
    (5 = 5 → (Table.build Nat wHash wKeys5).nodes.length = 8) ∧
    (5 = 7 → (Table.build Nat wHash wKeys5).nodes.length = 16)) :=
  ⟨⟨by decide, by decide, rfl⟩,
    claim_C3_capacity wHash wKeys5 5 (by decide) (by decide)
      (Table.build Nat wHash wKeys5) rfl⟩

theorem claim_C4_lookup_witness :
    (Table.build Nat wHash wKeys = Table.build Nat wHash wKeys) ∧
    (probeSeq (Table.build Nat wHash wKeys) wHash [1] 0
      = (wHash [1] &&& (Table.build Nat wHash wKeys).capacity_mask) ∧
    (∀ t, probeSeq (Table.build Nat wHash wKeys) wHash [1] (t + 1)
      = (probeSeq (Table.build Nat wHash wKeys) wHash [1] t + 1)
          &&& (Table.build Nat wHash wKeys).capacity_mask) ∧
    ∃ d, d < (Table.build Nat wHash wKeys).nodes.length ∧
      (∀ t, t < d → ∃ nd,
        (Table.build Nat wHash wKeys).nodes.getD
          (probeSeq (Table.build Nat wHash wKeys) wHash [1] t) none = some nd ∧
        (Table.build Nat wHash wKeys).get_bytes nd ≠ [1]) ∧
      (((Table.build Nat wHash wKeys).nodes.getD
          (probeSeq (Table.build Nat wHash wKeys) wHash [1] d) none = none ∧
        (Table.build Nat wHash wKeys).get_pos wHash [1] = none) ∨
        (∃ nd, (Table.build Nat wHash wKeys).nodes.getD
          (probeSeq (Table.build Nat wHash wKeys) wHash [1] d) none = some nd ∧
        (Table.build Nat wHash wKeys).get_bytes nd = [1] ∧
        (Table.build Nat wHash wKeys).get_pos wHash [1]
          = some (probeSeq (Table.build Nat wHash wKeys) wHash [1] d)))) :=
  ⟨rfl, claim_C4_lookup wHash wKeys [1] (Table.build Nat wHash wKeys) rfl⟩

theorem claim_C5_termination_witness :
    (wDupKeys ≠ [] ∧ Table.build Nat wHash wDupKeys = Table.build Nat wHash wDupKeys) ∧
    (wDupKeys.length < (Table.build Nat wHash wDupKeys).nodes.length ∧
    (∃ p, p < (Table.build Nat wHash wDupKeys).nodes.length ∧
      (Table.build Nat wHash wDupKeys).nodes.getD p none = none) ∧
    (∀ k, ∃ r, probeLoop (Table.build Nat wHash wDupKeys) k
      (Table.build Nat wHash wDupKeys).nodes.length
      (wHash k &&& (Table.build Nat wHash wDupKeys).capacity_mask) = some r)) :=
  ⟨⟨by decide, rfl⟩,
    claim_C5_termination wHash wDupKeys (by decide)
      (Table.build Nat wHash wDupKeys) rfl⟩

theorem claim_C7_mutation_witness :
    (HashMap.new wHash wRecords = .ok wMapResult ∧ ([1], 10) ∈ wRecords) ∧
    (HashMap.get wHash (HashMap.writeViaGetMut wHash wMapResult [1] 99) [1]
        = some 99 ∧
    (∀ k2 v3, (k2, v3) ∈ wRecords → k2 ≠ [1] →
      HashMap.get wHash (HashMap.writeViaGetMut wHash wMapResult [1] 99) k2
        = HashMap.get wHash wMapResult k2) ∧
    (HashMap.writeViaGetMut wHash wMapResult [1] 99).len = wMapResult.len ∧
    (∀ q, HashMap.contains_key wHash
        (HashMap.writeViaGetMut wHash wMapResult [1] 99) q
      = HashMap.contains_key wHash wMapResult q)) :=
  ⟨⟨rfl, by decide⟩,
    claim_C7_mutation wHash wRecords wMapResult (by rfl) [1] 10 (by decide) 99⟩

theorem claim_C8_invariant_witness :
    (Table.build Nat wHash wKeys = Table.build Nat wHash wKeys) ∧
    ((∀ p j, (buildMapping wHash wKeys).getD p none = some j →
      ∃ nd, (Table.build Nat wHash wKeys).nodes.getD p none = some nd ∧
        nd.ptr + nd.len ≤ (Table.build Nat wHash wKeys).bytes.length ∧
        (Table.build Nat wHash wKeys).get_bytes nd = wKeys.getD j []) ∧
    (∀ p q ndp ndq, p < q →
      (Table.build Nat wHash wKeys).nodes.getD p none = some ndp →
      (Table.build Nat wHash wKeys).nodes.getD q none = some ndq →
      ndp.ptr + ndp.len ≤ ndq.ptr) ∧
    (∀ pos v, ((Table.build Nat wHash wKeys).setValAt pos v).bytes
        = (Table.build Nat wHash wKeys).bytes ∧
      ∀ q, (((Table.build Nat wHash wKeys).setValAt pos v).nodes.getD q none).map
            (fun nd => (nd.ptr, nd.len))
        = ((Table.build Nat wHash wKeys).nodes.getD q none).map
            (fun nd => (nd.ptr, nd.len)))) :=
  ⟨rfl, claim_C8_invariant wHash wKeys (Table.build Nat wHash wKeys) rfl⟩

theorem claim_C9_len_witness :
    (HashMap.new wHash wRecords = .ok wMapResult ∧
      HashSet.new wHash wKeys = .ok wSetResult) ∧
    (wMapResult.len = wRecords.length ∧ wMapResult.is_empty = false ∧
      wSetResult.len = wKeys.length ∧ wSetResult.is_empty = false) :=
  ⟨⟨rfl, rfl⟩,
    claim_C9_len wHash wRecords wMapResult (by rfl) wKeys wSetResult (by rfl)⟩

theorem claim_C10_no_panic_witness :
    HashMap.new wHash wDupRecords ≠ .error .unwrapPanic ∧
    HashSet.new wHash wDupKeys ≠ .error .unwrapPanic ∧
    (∀ k, k ∈ wDupRecords.map Prod.fst →
      ∃ p nd, (Table.build Nat wHash (wDupRecords.map Prod.fst)).get_pos wHash k
          = some p ∧
        (Table.build Nat wHash (wDupRecords.map Prod.fst)).nodes.getD p none
          = some nd) :=
  claim_C10_no_panic wHash wDupRecords wDupKeys

end SimpleArrayHash
